import Mathlib

/-!
Verification development for the darell local automation agent.

The TypeScript sources are shallowly embedded in Lean:
JavaScript strings are modelled as lists of characters (`Str`),
the filesystem as an association list from absolute paths to file contents,
and subprocess or directory state that the repository only observes through
the operating system as explicit oracle functions carried by the world state.
All embedded definitions are computable so that concrete runs evaluate by
`decide` or `rfl`.
-/

/-- JavaScript strings are modelled as lists of characters. -/
abbrev Str := List Char

/-- Coercion helper turning a Lean string literal into the `Str` model. -/
def strOf (s : String) : Str := s.toList

/-- Index of the first occurrence of `f` in `s`, mirroring JS `indexOf`:
`none` when `f` never occurs; for the empty pattern the index is `0`. -/
def findIdx (s f : Str) : Option Nat :=
  if f.isPrefixOf s then some 0
  else
    match s with
    | [] => none
    | _ :: t => (findIdx t f).map (· + 1)

/-- `true` when `f` occurs somewhere in `s` (JS `includes`). -/
def strIncludes (s f : Str) : Bool := (findIdx s f).isSome

/-- Occurrence of `f` as a contiguous substring of `s`, as a proposition. -/
def occursIn (f s : Str) : Prop := ∃ u v, s = u ++ f ++ v

/-- Split `s` at every occurrence of the character `sep`, keeping empty
pieces (the final piece of an empty input is dropped, which is harmless
because every caller filters or maps the pieces). -/
def splitOnChar (sep : Char) : Str → List Str
  | [] => []
  | c :: t =>
    if c = sep then [] :: splitOnChar sep t
    else
      match splitOnChar sep t with
      | [] => [[c]]
      | p :: ps => (c :: p) :: ps

/-- Join a list of strings with the separator `sep`, mirroring
`Array.prototype.join` (which performs no escape processing). -/
def joinSep (sep : Str) : List Str → Str
  | [] => []
  | [x] => x
  | x :: y :: ys => x ++ sep ++ joinSep sep (y :: ys)

/-- JS `String.prototype.trim`, dropping whitespace from both ends. -/
def jsTrim (s : Str) : Str :=
  ((s.dropWhile Char.isWhitespace).reverse.dropWhile Char.isWhitespace).reverse

/-- JS `String.prototype.toLowerCase`, character by character (the model
names involved are ASCII). -/
def toLowerStr (s : Str) : Str := s.map Char.toLower


/-! ## Path Sandbox (src/core/tools.ts)

Node `path` semantics are modelled for POSIX separators, with the workspace
root assumed absolute (a relative root would first be resolved against the
process working directory, which the orchestrator does not depend on). -/

/-- `os.homedir()`, modelled as a fixed absolute path. -/
def homedir : Str := strOf "/home/user"

/-- A path is absolute when it starts with the separator. -/
def isAbs (p : Str) : Bool :=
  match p with
  | [] => false
  | c :: _ => c = '/'

/-- The nonempty separator-delimited segments of a path string. -/
def splitSegs (p : Str) : List Str := (splitOnChar '/' p).filter (· ≠ [])

/-- One step of `.` and `..` resolution: `.` and empty segments are
dropped, `..` pops the last kept segment (and is dropped at the filesystem
root), anything else is kept. -/
def normStep (acc : List Str) (s : Str) : List Str :=
  if s = [] then acc
  else if s = ['.'] then acc
  else if s = ['.', '.'] then acc.dropLast
  else acc ++ [s]

/-- Resolution of `.` and `..` segments, as in Node `normalizeString` for an
absolute path. -/
def normSegs (l : List Str) : List Str := l.foldl normStep []

/-- Rebuild an absolute path string from its segments. -/
def joinAbs (segs : List Str) : Str := '/' :: joinSep ['/'] segs

/-- Node `path.resolve(p)` for an absolute `p`. -/
def normalizePath (p : Str) : Str := joinAbs (normSegs (splitSegs p))

/-- Node `path.resolve(base, target)` for an absolute `base`: an absolute
`target` wins, otherwise `target` is resolved against `base`. -/
def pathResolve (base target : Str) : Str :=
  if isAbs target then joinAbs (normSegs (splitSegs target))
  else joinAbs (normSegs (splitSegs base ++ splitSegs target))

/-- `expandHome` from tools.ts: a lone `~` becomes the home directory and a
leading `~/` is replaced by it (`path.join` followed by `path.resolve`
normalizes identically to resolving the plain concatenation). -/
def expandHome (target : Str) : Str :=
  if target = ['~'] then homedir
  else if (['~', '/'] : Str).isPrefixOf target then homedir ++ ['/'] ++ target.drop 2
  else target

/-- `resolveWithinRoot` from tools.ts: resolve `target` against `root` after
home expansion and, unless `allowOutsideRoot`, fail when the result neither
extends `normalizedRoot ++ "/"` nor equals the normalized root. -/
def resolveWithinRoot (root target : Str) (allowOutsideRoot : Bool := true) :
    Except Str Str :=
  let resolved := pathResolve root (expandHome target)
  let normalizedRoot := normalizePath root
  if !allowOutsideRoot && !(normalizedRoot ++ ['/']).isPrefixOf resolved
      && !(resolved = normalizedRoot : Bool) then
    .error (strOf "Path escapes root: " ++ target)
  else
    .ok resolved

/-- JS callers pass `ctx.allowOutsideRoot` which may be `undefined`; the
parameter default `true` then applies. -/
def resolveWithinRootOpt (root target : Str) (allow : Option Bool) :
    Except Str Str :=
  resolveWithinRoot root target (allow.getD true)

/-- Whether path resolution rejected the target with an escape error. -/
def isEscape (r : Except Str Str) : Bool :=
  match r with
  | .error _ => true
  | .ok _ => false

instance {α β : Type} [DecidableEq α] [DecidableEq β] : DecidableEq (Except α β) :=
  fun a b =>
    match a, b with
    | .ok x, .ok y => if h : x = y then isTrue (by rw [h]) else isFalse (by simp [h])
    | .error x, .error y =>
      if h : x = y then isTrue (by rw [h]) else isFalse (by simp [h])
    | .ok _, .error _ => isFalse (by simp)
    | .error _, .ok _ => isFalse (by simp)

/-- The segment list underlying `pathResolve` (its output is `joinAbs` of
this list). -/
def resolveSegs (base target : Str) : List Str :=
  normSegs (if isAbs target then splitSegs target
    else splitSegs base ++ splitSegs target)

/-- The semantic claim-side notion of nesting: the resolved path lies
strictly inside the directory tree of the root, segment-wise. -/
def nestedUnder (rootAbs resolvedAbs : Str) : Prop :=
  splitSegs rootAbs <+: splitSegs resolvedAbs ∧
    splitSegs rootAbs ≠ splitSegs resolvedAbs

instance (a b : Str) : Decidable (nestedUnder a b) := by
  unfold nestedUnder; infer_instance

/-! ## Literal substring machinery (replaceInFile in tools.ts)

`jsSplit`, `jsReplace` and the occurrence counter are written with an
explicit fuel argument (always called with sufficient fuel) so that they
are structurally recursive and evaluate inside the kernel. -/

/-- Fuel-driven scan counting non-overlapping occurrences left to right. -/
def countOccGo (f : Str) : Nat → Str → Nat
  | 0, _ => 0
  | fuel + 1, s =>
    match findIdx s f with
    | none => 0
    | some i => 1 + countOccGo f fuel (s.drop (i + f.length))

/-- Number of non-overlapping occurrences of `f` in `s`, scanning left to
right exactly as the JS split scan does (0 for the empty pattern, whose
occurrence count is not meaningful). -/
def countOcc (s f : Str) : Nat :=
  if f.isEmpty then 0 else countOccGo f (s.length + 1) s

/-- Fuel-driven piece collection for split. -/
def jsSplitGo (f : Str) : Nat → Str → List Str
  | 0, s => [s]
  | fuel + 1, s =>
    match findIdx s f with
    | none => [s]
    | some i => s.take i :: jsSplitGo f fuel (s.drop (i + f.length))

/-- JS `String.prototype.split` with a string separator: the empty
separator splits into single characters, otherwise the pieces between
non-overlapping left-to-right matches. -/
def jsSplit (s f : Str) : List Str :=
  if f.isEmpty then s.map (fun c => [c])
  else jsSplitGo f (s.length + 1) s

/-- ECMA GetSubstitution for a string search pattern (which has no capture
groups): in the replacement, a doubled dollar is a literal dollar, dollar
ampersand inserts the match, dollar backquote the portion before the match
and dollar quote the portion after it; any other dollar sequence stays
literal. -/
def getSubstitution (matched before after : Str) : Str → Str
  | [] => []
  | c :: rest =>
    if c = '$' then
      match rest with
      | [] => ['$']
      | d :: rest2 =>
        if d = '$' then '$' :: getSubstitution matched before after rest2
        else if d = '&' then matched ++ getSubstitution matched before after rest2
        else if d = Char.ofNat 96 then
          before ++ getSubstitution matched before after rest2
        else if d = Char.ofNat 39 then
          after ++ getSubstitution matched before after rest2
        else '$' :: d :: getSubstitution matched before after rest2
    else c :: getSubstitution matched before after rest

/-- JS `String.prototype.replace` with a string pattern and a string
replacement: the first occurrence is replaced, after dollar substitution
has been applied to the replacement text. -/
def jsReplace (s f r : Str) : Str :=
  match findIdx s f with
  | none => s
  | some i =>
    s.take i ++ getSubstitution f (s.take i) (s.drop (i + f.length)) r
      ++ s.drop (i + f.length)

/-! ## Usage/Cost Accountant (pricing.ts)

Prices are modelled as rationals; every numeric literal appearing in the
source and in the claims is exactly representable. -/

/-- Per-model pricing entry (dollars per million tokens). -/
structure ModelPricing where
  input : ℚ
  output : ℚ
  cachedInput : Option ℚ := none
deriving Repr, DecidableEq

/-- Association-list lookup, modelling JS object indexing by string key. -/
def alookup {α : Type} : List (Str × α) → Str → Option α
  | [], _ => none
  | (k, v) :: t, key => if k = key then some v else alookup t key

/-- The DEFAULT_PRICING table, in source order. -/
def DEFAULT_PRICING : List (Str × ModelPricing) :=
  [ (strOf "gpt-5.2", { input := 1.75, output := 14, cachedInput := some 0.175 }),
    (strOf "gpt-5.2-chat-latest", { input := 1.75, output := 14, cachedInput := some 0.175 }),
    (strOf "gpt-5.2-pro", { input := 21, output := 168 }),
    (strOf "gpt-5.1", { input := 1.25, output := 10, cachedInput := some 0.125 }),
    (strOf "gpt-5.1-chat-latest", { input := 1.25, output := 10, cachedInput := some 0.125 }),
    (strOf "gpt-5-pro", { input := 15, output := 120 }),
    (strOf "gpt-4o", { input := 2.5, output := 10, cachedInput := some 1.25 }),
    (strOf "gpt-4o-mini", { input := 0.15, output := 0.6, cachedInput := some 0.075 }),
    (strOf "gpt-4.1", { input := 2.0, output := 8.0, cachedInput := some 0.5 }),
    (strOf "gpt-4.1-mini", { input := 0.4, output := 1.6, cachedInput := some 0.1 }),
    (strOf "gpt-4.1-nano", { input := 0.1, output := 0.4, cachedInput := some 0.025 }) ]

/-- `normalizeModel` from pricing.ts. -/
def normalizeModel (m : Str) : Str := toLowerStr (jsTrim m)

/-- The hardcoded prefix fallback list, in source order. -/
def PREFIX_LIST : List Str :=
  [ strOf "gpt-5.2", strOf "gpt-5.1", strOf "gpt-5-pro", strOf "gpt-5.2-pro",
    strOf "gpt-4o-mini", strOf "gpt-4o", strOf "gpt-4.1-mini",
    strOf "gpt-4.1-nano", strOf "gpt-4.1" ]

/-- `resolvePricing` from pricing.ts: overrides by raw then normalized key,
then the default table by normalized key, then the first entry of the
prefix list that, followed by a hyphen, prefixes the normalized name. -/
def resolvePricing (model : Str)
    (overrides : Option (List (Str × ModelPricing)) := none) :
    Option ModelPricing :=
  let normalized := normalizeModel model
  let direct : Option ModelPricing :=
    match overrides with
    | none => none
    | some ov => (alookup ov model).orElse (fun _ => alookup ov normalized)
  match direct with
  | some d => some d
  | none =>
    match alookup DEFAULT_PRICING normalized with
    | some p => some p
    | none =>
      match PREFIX_LIST.find? (fun p => (p ++ ['-']).isPrefixOf normalized) with
      | some p => alookup DEFAULT_PRICING p
      | none => none

/-- The known model names, i.e. the keys of the default pricing table. -/
def KNOWN_MODEL_NAMES : List Str := DEFAULT_PRICING.map Prod.fst

/-- The longest string of a list (ties keep the earlier element). -/
def maxByLength : List Str → Option Str
  | [] => none
  | x :: xs => some (xs.foldl (fun acc s => if acc.length < s.length then s else acc) x)

/-- Modelled from the claim wording: the pricing entry of the longest known
model name that is a plain string prefix of the queried (normalized) name. -/
def longestPlainPrefixEntry (n : Str) : Option ModelPricing :=
  match maxByLength (KNOWN_MODEL_NAMES.filter (fun k => k.isPrefixOf n)) with
  | none => none
  | some k => alookup DEFAULT_PRICING k

/-- Amended spec-side lookup: the pricing entry of the longest known model
name that, followed by a hyphen, prefixes the queried (normalized) name. -/
def longestHyphenPrefixEntry (n : Str) : Option ModelPricing :=
  match maxByLength (KNOWN_MODEL_NAMES.filter (fun k => (k ++ ['-']).isPrefixOf n)) with
  | none => none
  | some k => alookup DEFAULT_PRICING k

/-- Raw usage counters of a model response; `cached_tokens` flattens the
optional `prompt_tokens_details.cached_tokens` field. Counters are
modelled as naturals (they are token counts). -/
structure RawUsage where
  prompt_tokens : Option Nat := none
  completion_tokens : Option Nat := none
  total_tokens : Option Nat := none
  cached_tokens : Option Nat := none
deriving Repr, DecidableEq

/-- UsageSummary from pricing.ts. -/
structure UsageSummary where
  model : Str
  promptTokens : Nat
  completionTokens : Nat
  totalTokens : Nat
  cachedTokens : Nat
  cost : Option ℚ := none
deriving Repr, DecidableEq

/-- `summarizeUsage` from pricing.ts. `Math.max(0, promptTokens - cached)`
is natural-number truncated subtraction. -/
def summarizeUsage (model : Str) (usage : Option RawUsage)
    (overrides : Option (List (Str × ModelPricing)) := none) :
    Option UsageSummary :=
  match usage with
  | none => none
  | some u =>
    let promptTokens := u.prompt_tokens.getD 0
    let completionTokens := u.completion_tokens.getD 0
    let totalTokens := u.total_tokens.getD (promptTokens + completionTokens)
    let cachedTokens := u.cached_tokens.getD 0
    match resolvePricing model overrides with
    | none =>
      some { model := model, promptTokens := promptTokens,
             completionTokens := completionTokens, totalTokens := totalTokens,
             cachedTokens := cachedTokens }
    | some pricing =>
      let cached := min cachedTokens promptTokens
      let billableInput := promptTokens - cached
      let cachedRate := pricing.cachedInput.getD pricing.input
      let cost : ℚ :=
        (billableInput * pricing.input) / 1000000
          + (cached * cachedRate) / 1000000
          + (completionTokens * pricing.output) / 1000000
      some { model := model, promptTokens := promptTokens,
             completionTokens := completionTokens, totalTokens := totalTokens,
             cachedTokens := cachedTokens, cost := some cost }

/-- The zero-initialised run total built at the top of runAgent. -/
def emptyRunUsage (model : Str) : UsageSummary :=
  { model := model, promptTokens := 0, completionTokens := 0,
    totalTokens := 0, cachedTokens := 0 }

/-- The per-call accumulation into the run total (runAgent): token counts
add componentwise; a priced summary adds its cost to the running cost
(treating an unset running cost as zero), an unpriced one leaves it. -/
def accumUsage (run s : UsageSummary) : UsageSummary :=
  { run with
    promptTokens := run.promptTokens + s.promptTokens
    completionTokens := run.completionTokens + s.completionTokens
    totalTokens := run.totalTokens + s.totalTokens
    cachedTokens := run.cachedTokens + s.cachedTokens
    cost :=
      match s.cost with
      | some c => some (run.cost.getD 0 + c)
      | none => run.cost }

/-- The run total after the optional plan-phase and followup-phase
summaries have been merged, exactly as runAgent performs it. -/
def runUsageTotal (model : Str) (planU followU : Option UsageSummary) :
    UsageSummary :=
  let r1 :=
    match planU with
    | some u => accumUsage (emptyRunUsage model) u
    | none => emptyRunUsage model
  match followU with
  | some u => accumUsage r1 u
  | none => r1

/-- The phase tag carried by usage events. -/
inductive UsagePhase where
  | plan
  | followup
  | run
deriving Repr, DecidableEq

/-- The end-of-run emission in runAgent: one usage event under phase `run`
exactly when the accumulated token total is positive. -/
def finalUsageEvents (r : UsageSummary) : List (UsagePhase × UsageSummary) :=
  if r.totalTokens > 0 then [(UsagePhase.run, r)] else []

/-! ## Tool Adapters (tools.ts) and world model

The filesystem is an association list from absolute paths to contents (the
most recent binding wins). Directory listings, stat calls, subprocess
outcomes and the fallback content scan depend on operating-system state
outside this map and are modelled as oracle functions in `OsEnv`. -/

/-- The filesystem model. -/
abbrev FS := List (Str × Str)

def lookupFS (fs : FS) (p : Str) : Option Str := alookup fs p

def fsWrite (fs : FS) (p c : Str) : FS := (p, c) :: fs

def fsRemove (fs : FS) (p : Str) : FS := fs.filter (fun e => e.1 ≠ p)

/-- ToolContext from tools.ts; the optional flag left unset means the
`resolveWithinRoot` parameter default `true` applies. -/
structure ToolContext where
  root : Str
  allowOutsideRoot : Option Bool := none

/-- One recorded subprocess invocation. -/
structure Spawn where
  cmd : Str
  args : List Str
  viaShell : Bool
  cwd : Str
deriving Repr, DecidableEq

/-- Operating-system state the adapters observe but this model does not
track directly: tool availability, directory structure, subprocess
behaviour and the temporary-file name used for patches. -/
structure OsEnv where
  hasRg : Bool := false
  gitDirExists : Str → Bool := fun _ => false
  listing : Str → Bool → Bool → Except Str Str := fun _ _ _ => .ok []
  statInfo : Str → Except Str Str := fun _ => .ok []
  scanResults : Str → Except Str Str := fun _ => .ok []
  spawnResult : Spawn → Except Str Str := fun _ => .ok []
  tmpName : Str := strOf "/tmp/darell-0.patch"

/-- The mutable world threaded through a run: the filesystem, the record
of spawned subprocesses, and the environment oracles. -/
structure World where
  fs : FS := []
  spawned : List Spawn := []
  env : OsEnv := {}

/-- moveFile from tools.ts (parent-directory creation is implicit in the
path-keyed filesystem model; a missing source makes `fs.rename` reject). -/
def moveFile (ctx : ToolContext) (w : World) (src dst : Str) :
    World × Except Str Str :=
  match resolveWithinRootOpt ctx.root src ctx.allowOutsideRoot with
  | .error e => (w, .error e)
  | .ok source =>
    match resolveWithinRootOpt ctx.root dst ctx.allowOutsideRoot with
    | .error e => (w, .error e)
    | .ok dest =>
      match lookupFS w.fs source with
      | none =>
        (w, .error (strOf "ENOENT: no such file or directory, rename " ++ source))
      | some content =>
        ({ w with fs := fsWrite (fsRemove w.fs source) dest content },
          .ok (strOf "Moved " ++ src ++ strOf " -> " ++ dst))

/-- renameFile from tools.ts. -/
def renameFile (ctx : ToolContext) (w : World) (src dst : Str) :
    World × Except Str Str :=
  match resolveWithinRootOpt ctx.root src ctx.allowOutsideRoot with
  | .error e => (w, .error e)
  | .ok source =>
    match resolveWithinRootOpt ctx.root dst ctx.allowOutsideRoot with
    | .error e => (w, .error e)
    | .ok dest =>
      match lookupFS w.fs source with
      | none =>
        (w, .error (strOf "ENOENT: no such file or directory, rename " ++ source))
      | some content =>
        ({ w with fs := fsWrite (fsRemove w.fs source) dest content },
          .ok (strOf "Renamed " ++ src ++ strOf " -> " ++ dst))

/-- Line splitting on carriage-return-optional newlines. -/
def splitLines (s : Str) : List Str :=
  (splitOnChar '\n' s).map
    (fun l => if l.getLast? = some '\r' then l.dropLast else l)

/-- readFile from tools.ts (line bounds modelled for the nonnegative
values the schema intends). -/
def readFileTool (ctx : ToolContext) (w : World) (target : Str)
    (start stop : Option Int) : World × Except Str Str :=
  match resolveWithinRootOpt ctx.root target ctx.allowOutsideRoot with
  | .error e => (w, .error e)
  | .ok p =>
    match lookupFS w.fs p with
    | none =>
      (w, .error (strOf "ENOENT: no such file or directory, open " ++ p))
    | some raw =>
      if start.isNone && stop.isNone then (w, .ok raw)
      else
        let lines := splitLines raw
        let lo : Int := max 1 (start.getD 1)
        let hi : Int := min (lines.length : Int) (stop.getD lines.length)
        (w, .ok (joinSep ['\n']
          (((lines.drop (lo - 1).toNat).take ((hi - (lo - 1)).toNat)))))

/-- writeFile from tools.ts. -/
def writeFileTool (ctx : ToolContext) (w : World) (target content : Str) :
    World × Except Str Str :=
  match resolveWithinRootOpt ctx.root target ctx.allowOutsideRoot with
  | .error e => (w, .error e)
  | .ok p =>
    ({ w with fs := fsWrite w.fs p content }, .ok (strOf "Wrote " ++ target))

/-- appendFile from tools.ts (appending to a missing file creates it). -/
def appendFileTool (ctx : ToolContext) (w : World) (target content : Str) :
    World × Except Str Str :=
  match resolveWithinRootOpt ctx.root target ctx.allowOutsideRoot with
  | .error e => (w, .error e)
  | .ok p =>
    let existing := (lookupFS w.fs p).getD []
    ({ w with fs := fsWrite w.fs p (existing ++ content) },
      .ok (strOf "Appended " ++ target))

/-- createFile from tools.ts: existence is probed first and the write is
only reached when the file is absent or overwrite was requested. -/
def createFileTool (ctx : ToolContext) (w : World) (target content : Str)
    (overwrite : Bool := false) : World × Except Str Str :=
  match resolveWithinRootOpt ctx.root target ctx.allowOutsideRoot with
  | .error e => (w, .error e)
  | .ok p =>
    if (lookupFS w.fs p).isSome && !overwrite then
      (w, .error (strOf "File already exists: " ++ target))
    else
      ({ w with fs := fsWrite w.fs p content }, .ok (strOf "Created " ++ target))

/-- deleteFile from tools.ts (`force: true` makes a missing target succeed). -/
def deleteFileTool (ctx : ToolContext) (w : World) (target : Str) :
    World × Except Str Str :=
  match resolveWithinRootOpt ctx.root target ctx.allowOutsideRoot with
  | .error e => (w, .error e)
  | .ok p =>
    ({ w with fs := fsRemove w.fs p }, .ok (strOf "Deleted " ++ target))

/-- replaceInFile from tools.ts: split/join for replace-all, JS replace
(first occurrence, with dollar substitution) otherwise. -/
def replaceInFileTool (ctx : ToolContext) (w : World) (target find repl : Str)
    (replaceAll : Bool := true) : World × Except Str Str :=
  match resolveWithinRootOpt ctx.root target ctx.allowOutsideRoot with
  | .error e => (w, .error e)
  | .ok p =>
    match lookupFS w.fs p with
    | none =>
      (w, .error (strOf "ENOENT: no such file or directory, open " ++ p))
    | some raw =>
      let updated :=
        if replaceAll then joinSep repl (jsSplit raw find)
        else jsReplace raw find repl
      ({ w with fs := fsWrite w.fs p updated },
        .ok (strOf "Replaced text in " ++ target))

/-- listDir from tools.ts; the walk over real directories is an oracle. -/
def listDirTool (ctx : ToolContext) (w : World) (target : Str)
    (recursive includeHidden : Bool) : World × Except Str Str :=
  match resolveWithinRootOpt ctx.root target ctx.allowOutsideRoot with
  | .error e => (w, .error e)
  | .ok p => (w, w.env.listing p recursive includeHidden)

/-- fileInfo from tools.ts; the stat call and its JSON rendering are an
oracle. -/
def fileInfoTool (ctx : ToolContext) (w : World) (target : Str) :
    World × Except Str Str :=
  match resolveWithinRootOpt ctx.root target ctx.allowOutsideRoot with
  | .error e => (w, .error e)
  | .ok p => (w, w.env.statInfo p)

/-- runShell from tools.ts: with no args and a space in the command the
string runs through the system shell, otherwise the executable is spawned
directly with its argument list; exit-code handling (trimmed stdout on
success, trimmed stderr on failure) is folded into the spawn oracle. -/
def runShellTool (ctx : ToolContext) (w : World) (command : Str)
    (args : List Str := []) : World × Except Str Str :=
  let sh := args.isEmpty && command.contains ' '
  let sp : Spawn := { cmd := command, args := args, viaShell := sh, cwd := ctx.root }
  ({ w with spawned := w.spawned ++ [sp] }, w.env.spawnResult sp)

/-- runGit from tools.ts. -/
def runGitTool (ctx : ToolContext) (w : World) (args : List Str) :
    World × Except Str Str :=
  runShellTool ctx w (strOf "git") args

/-- searchFiles from tools.ts: probe for rg (a spawn with stdio ignored),
delegate to it when present, otherwise fall back to the recursive content
scan (an oracle over operating-system directory state). -/
def searchFilesTool (ctx : ToolContext) (w : World) (query : Str)
    (glob : Option Str) : World × Except Str Str :=
  match resolveWithinRootOpt ctx.root (strOf ".") ctx.allowOutsideRoot with
  | .error e => (w, .error e)
  | .ok p =>
    let probe : Spawn :=
      { cmd := strOf "rg", args := [strOf "--version"], viaShell := false, cwd := [] }
    let w1 := { w with spawned := w.spawned ++ [probe] }
    if w1.env.hasRg then
      let args :=
        match glob with
        | some g => [strOf "-g", g, strOf "-n", query, p]
        | none => [strOf "-n", query, p]
      runShellTool ctx w1 (strOf "rg") args
    else
      (w1, w1.env.scanResults query)

/-- applyPatch from tools.ts: stage the patch into a temporary file, apply
through git when a .git directory exists at the resolved root and through
the generic patch tool otherwise, and remove the temporary file on every
exit path. -/
def applyPatchTool (ctx : ToolContext) (w : World) (patch : Str) :
    World × Except Str Str :=
  match resolveWithinRootOpt ctx.root (strOf ".") ctx.allowOutsideRoot with
  | .error e => (w, .error e)
  | .ok p =>
    let tmp := w.env.tmpName
    let w1 := { w with fs := fsWrite w.fs tmp patch }
    let useGit := w1.env.gitDirExists (p ++ strOf "/.git")
    let step :=
      if useGit then
        runShellTool ctx w1 (strOf "git")
          [strOf "apply", strOf "--whitespace=nowarn", tmp]
      else
        runShellTool ctx w1 (strOf "patch") [strOf "-p0", strOf "-i", tmp]
    let w2 := { step.1 with fs := fsRemove step.1.fs tmp }
    match step.2 with
    | .ok _ => (w2, .ok (strOf "Patch applied"))
    | .error e => (w2, .error e)

/-! ## Plan schema and Agent Orchestrator (agent.ts)

The fourteen action variants carry exactly the fields of the zod schema;
`src`, `dst`, `start` and `stop` stand for the source fields `from`, `to`,
`start` and `end`, which are reserved words here. -/

/-- The AgentAction discriminated union (the zod ActionSchema variants). -/
inductive AgentAction where
  | read_file (path : Str) (start stop : Option Int) (reason : Option Str)
  | write_file (path content : Str) (reason : Option Str)
  | append_file (path content : Str) (reason : Option Str)
  | create_file (path content : Str) (overwrite : Option Bool) (reason : Option Str)
  | delete_file (path : Str) (reason : Option Str)
  | replace_in_file (path find replace : Str) (replaceAll : Option Bool)
      (reason : Option Str)
  | list_dir (path : Str) (recursive includeHidden : Option Bool)
      (reason : Option Str)
  | file_info (path : Str) (reason : Option Str)
  | search_files (query : Str) (glob : Option Str) (reason : Option Str)
  | apply_patch (patch : Str) (reason : Option Str)
  | move_file (src dst : Str) (reason : Option Str)
  | rename_file (src dst : Str) (reason : Option Str)
  | shell_command (command : Str) (args : List Str) (reason : Option Str)
  | git (args : List Str) (reason : Option Str)
deriving Repr, DecidableEq

/-- The description template of the execution loop: type, colon, then the
path, source, destination, command and argument fields (absent fields
render empty), finally trimmed (inner runs of blanks survive). -/
def describeFields (ty path src dst cmd args : Str) : Str :=
  jsTrim (ty ++ strOf ": " ++ path ++ [' '] ++ src ++ [' '] ++ dst
    ++ [' '] ++ cmd ++ [' '] ++ args)

/-- The rendered description of one action. -/
def describe : AgentAction → Str
  | .read_file p _ _ _ => describeFields (strOf "read_file") p [] [] [] []
  | .write_file p _ _ => describeFields (strOf "write_file") p [] [] [] []
  | .append_file p _ _ => describeFields (strOf "append_file") p [] [] [] []
  | .create_file p _ _ _ => describeFields (strOf "create_file") p [] [] [] []
  | .delete_file p _ => describeFields (strOf "delete_file") p [] [] [] []
  | .replace_in_file p _ _ _ _ =>
      describeFields (strOf "replace_in_file") p [] [] [] []
  | .list_dir p _ _ _ => describeFields (strOf "list_dir") p [] [] [] []
  | .file_info p _ => describeFields (strOf "file_info") p [] [] [] []
  | .search_files _ _ _ => describeFields (strOf "search_files") [] [] [] [] []
  | .apply_patch _ _ => describeFields (strOf "apply_patch") [] [] [] [] []
  | .move_file s d _ => describeFields (strOf "move_file") [] s d [] []
  | .rename_file s d _ => describeFields (strOf "rename_file") [] s d [] []
  | .shell_command c a _ =>
      describeFields (strOf "shell_command") [] [] [] c (joinSep [' '] a)
  | .git a _ => describeFields (strOf "git") [] [] [] [] (joinSep [' '] a)

/-- The dispatch switch of the execution loop, with the same optional-field
defaults the source applies at the call sites. -/
def dispatch (ctx : ToolContext) (a : AgentAction) (w : World) :
    World × Except Str Str :=
  match a with
  | .read_file p s e _ => readFileTool ctx w p s e
  | .write_file p c _ => writeFileTool ctx w p c
  | .append_file p c _ => appendFileTool ctx w p c
  | .create_file p c ow _ => createFileTool ctx w p c (ow.getD false)
  | .delete_file p _ => deleteFileTool ctx w p
  | .replace_in_file p f r ra _ => replaceInFileTool ctx w p f r (ra.getD true)
  | .list_dir p rec hid _ => listDirTool ctx w p (rec.getD false) (hid.getD false)
  | .file_info p _ => fileInfoTool ctx w p
  | .search_files q g _ => searchFilesTool ctx w q g
  | .apply_patch pt _ => applyPatchTool ctx w pt
  | .move_file s d _ => moveFile ctx w s d
  | .rename_file s d _ => renameFile ctx w s d
  | .shell_command c args _ => runShellTool ctx w c args
  | .git args _ => runGitTool ctx w args

/-- The run configuration, as read by runAgent (which also consults the
allow-outside-root flag and the pricing overrides on the config object). -/
structure DarellConfig where
  apiKey : Option Str := none
  baseUrl : Option Str := none
  organization : Option Str := none
  model : Option Str := none
  autoApprove : Option Bool := none
  allowOutsideRoot : Option Bool := none
  pricing : Option (List (Str × ModelPricing)) := none

/-- The tool context runAgent builds for the execution loop: the source
hardcodes `allowOutsideRoot: true` here, regardless of the configuration
argument. -/
def agentCtx (root : Str) (_config : DarellConfig) : ToolContext :=
  { root := root, allowOutsideRoot := some true }

/-- One iteration of the execution loop: unless blanket auto-approval is
on, a declined confirmation records a SKIPPED entry without dispatching;
otherwise the action is dispatched and the outcome recorded as OK or (for
a raised error, stringified to its message) ERROR. -/
def stepAction (autoApprove : Bool) (confirm : AgentAction → Bool)
    (ctx : ToolContext) (a : AgentAction) (w : World) : World × Str :=
  let d := describe a
  if !autoApprove && !confirm a then
    (w, strOf "SKIPPED " ++ d)
  else
    match dispatch ctx a w with
    | (w1, .ok r) => (w1, strOf "OK " ++ d ++ ['\n'] ++ r)
    | (w1, .error e) => (w1, strOf "ERROR " ++ d ++ ['\n'] ++ e)

/-- The execution loop over the plan actions, in order, threading the
world and appending one log entry per action. -/
def runActions (autoApprove : Bool) (confirm : AgentAction → Bool)
    (ctx : ToolContext) : List AgentAction → World → World × List Str
  | [], w => (w, [])
  | a :: rest, w =>
    let s := stepAction autoApprove confirm ctx a w
    let r := runActions autoApprove confirm ctx rest s.1
    (r.1, s.2 :: r.2)

theorem findIdx_nil (f : Str) (hf : f ≠ []) : findIdx [] f = none := by
  cases f with
  | nil => exact absurd rfl hf
  | cons c t => simp [findIdx, List.isPrefixOf]

theorem findIdx_found {s f : Str} {i : Nat} (h : findIdx s f = some i) :
    f.isPrefixOf (s.drop i) = true := by
  induction s generalizing i with
  | nil =>
    by_cases hp : f.isPrefixOf [] = true
    · simp only [findIdx, hp, if_pos, Option.some.injEq] at h
      subst h; simpa using hp
    · rw [findIdx] at h
      simp only [hp] at h
      cases f with
      | nil => simp at hp
      | cons c t => simp at h
  | cons c t ih =>
    by_cases hp : f.isPrefixOf (c :: t) = true
    · rw [findIdx, if_pos hp] at h
      cases h; exact hp
    · rw [findIdx, if_neg hp] at h
      cases hi : findIdx t f with
      | none => rw [hi] at h; simp at h
      | some j =>
        rw [hi] at h
        simp at h
        subst h
        exact ih hi

theorem findIdx_min {s f : Str} {i : Nat} (h : findIdx s f = some i) :
    ∀ j, j < i → ¬ f.isPrefixOf (s.drop j) = true := by
  induction s generalizing i with
  | nil =>
    intro j hj
    by_cases hp : f.isPrefixOf ([] : Str) = true
    · rw [findIdx, if_pos hp] at h; cases h; omega
    · rw [findIdx, if_neg hp] at h
      cases f with
      | nil => simp at hp
      | cons c t => simp at h
  | cons c t ih =>
    intro j hj
    by_cases hp : f.isPrefixOf (c :: t) = true
    · rw [findIdx, if_pos hp] at h; cases h; omega
    · rw [findIdx, if_neg hp] at h
      cases hi : findIdx t f with
      | none => rw [hi] at h; simp at h
      | some k =>
        rw [hi] at h
        simp at h
        subst h
        cases j with
        | zero => simpa using hp
        | succ j0 =>
          exact ih hi j0 (by omega)

theorem findIdx_none {s f : Str} (h : findIdx s f = none) :
    ∀ j, ¬ f.isPrefixOf (s.drop j) = true := by
  induction s with
  | nil =>
    intro j
    by_cases hp : f.isPrefixOf ([] : Str) = true
    · rw [findIdx, if_pos hp] at h; simp at h
    · simpa using hp
  | cons c t ih =>
    intro j
    by_cases hp : f.isPrefixOf (c :: t) = true
    · rw [findIdx, if_pos hp] at h; simp at h
    · rw [findIdx, if_neg hp] at h
      cases hi : findIdx t f with
      | none =>
        cases j with
        | zero => simpa using hp
        | succ j0 => simpa using ih hi j0
      | some k => rw [hi] at h; simp at h


theorem splitOnChar_no_sep {sep : Char} {s : Str} :
    ∀ x ∈ splitOnChar sep s, sep ∉ x := by
  induction s with
  | nil => intro x hx; simp [splitOnChar] at hx
  | cons c t ih =>
    intro x hx
    by_cases hc : c = sep
    · rw [splitOnChar, if_pos hc] at hx
      rcases List.mem_cons.mp hx with h | h
      · subst h; simp
      · exact ih x h
    · rw [splitOnChar, if_neg hc] at hx
      cases hacc : splitOnChar sep t with
      | nil =>
        rw [hacc] at hx
        simp at hx
        subst hx
        simpa using fun h => hc h.symm
      | cons p ps =>
        rw [hacc] at hx
        rcases List.mem_cons.mp hx with h | h
        · subst h
          intro hmem
          rcases List.mem_cons.mp hmem with h | h
          · exact hc h.symm
          · exact ih p (by rw [hacc]; simp) h
        · exact ih x (by rw [hacc]; simp [h])

theorem splitOnChar_sep_cons (sep : Char) (t : Str) :
    splitOnChar sep (sep :: t) = [] :: splitOnChar sep t := by
  rw [splitOnChar, if_pos rfl]

theorem splitOnChar_append {sep : Char} {a : Str} (y : Str)
    (hsep : sep ∉ a) (hne : a ≠ []) :
    splitOnChar sep (a ++ y) =
      match splitOnChar sep y with
      | [] => [a]
      | p :: ps => (a ++ p) :: ps := by
  induction a with
  | nil => exact absurd rfl hne
  | cons c a' ih =>
    have hc : c ≠ sep := fun h => hsep (by simp [h])
    cases a' with
    | nil =>
      simp only [List.cons_append, List.nil_append]
      rw [splitOnChar, if_neg hc]
    | cons d a'' =>
      have ha' : sep ∉ d :: a'' := fun h => hsep (by simp [h])
      have hrec := ih ha' (by simp)
      simp only [List.cons_append] at hrec ⊢
      rw [splitOnChar, if_neg hc, hrec]
      cases h : splitOnChar sep y with
      | nil => rfl
      | cons p ps => rfl

theorem splitOnChar_of_no_sep {sep : Char} {a : Str}
    (hsep : sep ∉ a) (hne : a ≠ []) : splitOnChar sep a = [a] := by
  have h := splitOnChar_append [] hsep hne
  simpa [splitOnChar] using h

theorem splitSegs_slash_cons (t : Str) : splitSegs ('/' :: t) = splitSegs t := by
  simp [splitSegs, splitOnChar_sep_cons]

/-- Segments produced by splitting are nonempty and separator-free. -/
theorem splitSegs_good {p : Str} : ∀ x ∈ splitSegs p, x ≠ [] ∧ '/' ∉ x := by
  intro x hx
  simp only [splitSegs, List.mem_filter, decide_eq_true_eq] at hx
  exact ⟨hx.2, splitOnChar_no_sep x hx.1⟩

theorem splitSegs_append_sep {a : Str} (y : Str)
    (hsep : '/' ∉ a) (hne : a ≠ []) :
    splitSegs (a ++ '/' :: y) = a :: splitSegs y := by
  unfold splitSegs
  rw [splitOnChar_append ('/' :: y) hsep hne, splitOnChar_sep_cons]
  simp [List.filter_cons, hne]

theorem splitSegs_of_no_sep {a : Str} (hsep : '/' ∉ a) (hne : a ≠ []) :
    splitSegs a = [a] := by
  unfold splitSegs
  rw [splitOnChar_of_no_sep hsep hne]
  simp [List.filter_cons, hne]

theorem splitSegs_join {A : List Str} (hA : ∀ x ∈ A, x ≠ [] ∧ '/' ∉ x) :
    splitSegs (joinSep ['/'] A) = A := by
  induction A with
  | nil => rfl
  | cons a A' ih =>
    have ha := hA a (by simp)
    cases A' with
    | nil => simpa [joinSep] using splitSegs_of_no_sep ha.2 ha.1
    | cons b B' =>
      have hrest : splitSegs (joinSep ['/'] (b :: B')) = b :: B' :=
        ih (fun x hx => hA x (by simp [List.mem_cons] at hx ⊢; tauto))
      have hjoin : joinSep ['/'] (a :: b :: B') =
          a ++ '/' :: joinSep ['/'] (b :: B') := by
        simp [joinSep]
      rw [hjoin, splitSegs_append_sep _ ha.2 ha.1, hrest]

theorem splitSegs_joinAbs {A : List Str} (hA : ∀ x ∈ A, x ≠ [] ∧ '/' ∉ x) :
    splitSegs (joinAbs A) = A := by
  rw [joinAbs, splitSegs_slash_cons]
  exact splitSegs_join hA

theorem joinAbs_inj {A B : List Str}
    (hA : ∀ x ∈ A, x ≠ [] ∧ '/' ∉ x) (hB : ∀ x ∈ B, x ≠ [] ∧ '/' ∉ x)
    (h : joinAbs A = joinAbs B) : A = B := by
  rw [← splitSegs_joinAbs hA, ← splitSegs_joinAbs hB, h]

theorem normStep_mem {acc : List Str} {sg x : Str} (hx : x ∈ normStep acc sg) :
    x ∈ acc ∨ (x = sg ∧ sg ≠ []) := by
  unfold normStep at hx
  by_cases h1 : sg = []
  · rw [if_pos h1] at hx; exact Or.inl hx
  · rw [if_neg h1] at hx
    by_cases h2 : sg = ['.']
    · rw [if_pos h2] at hx; exact Or.inl hx
    · rw [if_neg h2] at hx
      by_cases h3 : sg = ['.', '.']
      · rw [if_pos h3] at hx; exact Or.inl (List.dropLast_subset _ hx)
      · rw [if_neg h3] at hx
        rcases List.mem_append.mp hx with h | h
        · exact Or.inl h
        · simp at h; exact Or.inr ⟨h, h1⟩

theorem foldl_normStep_mem :
    ∀ (l acc : List Str) (x : Str), x ∈ l.foldl normStep acc →
      x ∈ acc ∨ (x ∈ l ∧ x ≠ []) := by
  intro l
  induction l with
  | nil => intro acc x hx; exact Or.inl hx
  | cons sg l' ih =>
    intro acc x hx
    simp only [List.foldl] at hx
    rcases ih (normStep acc sg) x hx with h | h
    · rcases normStep_mem h with h | h
      · exact Or.inl h
      · exact Or.inr ⟨by simp [h.1], by rw [h.1]; exact h.2⟩
    · exact Or.inr ⟨by simp [h.1], h.2⟩

theorem normSegs_mem {l : List Str} :
    ∀ x ∈ normSegs l, x ∈ l ∧ x ≠ [] := by
  intro x hx
  rcases foldl_normStep_mem l [] x hx with h | h
  · simp at h
  · exact h

/-- Bridge from the boolean prefix test to the propositional one. -/
theorem prefixOf_iff {a b : Str} : a.isPrefixOf b = true ↔ a <+: b :=
  List.isPrefixOf_iff_prefix

/-- Two prefixes of the same list are comparable. -/
theorem prefixTotal {a b n : Str} (h1 : a <+: n) (h2 : b <+: n) :
    a <+: b ∨ b <+: a :=
  List.prefix_or_prefix_of_prefix h1 h2

/-- Separator-delimited alignment: with separator-free `a` and `b`, a
prefix relation across one separator forces the first segments to agree. -/
theorem segSepPrefixIff {a b : Str} (u v : Str) (ha : '/' ∉ a) (hb : '/' ∉ b) :
    (a ++ '/' :: u) <+: (b ++ '/' :: v) ↔ a = b ∧ u <+: v := by
  induction a generalizing b with
  | nil =>
    cases b with
    | nil => simp [List.cons_prefix_cons]
    | cons d b' =>
      simp only [List.nil_append, List.cons_append, List.cons_prefix_cons]
      constructor
      · rintro ⟨h1, -⟩
        exact absurd (by simp [← h1]) hb
      · rintro ⟨h, -⟩
        exact absurd h (by simp)
  | cons c a' ih =>
    have hc : c ≠ '/' := fun h => ha (by simp [h])
    cases b with
    | nil =>
      simp only [List.cons_append, List.nil_append, List.cons_prefix_cons]
      constructor
      · rintro ⟨h1, -⟩; exact absurd h1 hc
      · rintro ⟨h, -⟩; exact absurd h (by simp)
    | cons d b' =>
      have ha' : '/' ∉ a' := fun h => ha (by simp [h])
      have hb' : '/' ∉ b' := fun h => hb (by simp [h])
      simp only [List.cons_append, List.cons_prefix_cons]
      rw [ih ha' hb']
      constructor
      · rintro ⟨h1, h2, h3⟩; exact ⟨by rw [h1, h2], h3⟩
      · rintro ⟨h, h3⟩
        injection h with h1 h2
        exact ⟨h1, h2, h3⟩

/-- Key correspondence for the sandbox check: for nonempty, well-formed
segment lists, the string test `root ++ "/" prefix of resolved` coincides
with strict segment-wise nesting. -/
theorem joinedPrefixIff {A B : List Str}
    (hA : ∀ x ∈ A, x ≠ [] ∧ '/' ∉ x) (hB : ∀ x ∈ B, x ≠ [] ∧ '/' ∉ x)
    (hAne : A ≠ []) :
    (joinSep ['/'] A ++ ['/']) <+: joinSep ['/'] B ↔ A <+: B ∧ A ≠ B := by
  induction A generalizing B with
  | nil => exact absurd rfl hAne
  | cons a A' ih =>
    have ha := hA a (by simp)
    cases A' with
    | nil =>
      cases B with
      | nil =>
        simp only [joinSep, List.prefix_nil]
        constructor
        · intro h; exact absurd h (by simp)
        · rintro ⟨h, -⟩; exact absurd h (by simp)
      | cons b B' =>
        have hb := hB b (by simp)
        cases B' with
        | nil =>
          simp only [joinSep]
          constructor
          · intro h
            exact absurd (h.subset (by simp)) hb.2
          · rintro ⟨h1, h2⟩
            rw [List.cons_prefix_cons] at h1
            exact absurd (by rw [h1.1]) h2
        | cons b2 B'' =>
          have hj : joinSep ['/'] (b :: b2 :: B'') =
              b ++ '/' :: joinSep ['/'] (b2 :: B'') := by
            simp [joinSep]
          rw [hj]
          have : (joinSep ['/'] [a] ++ ['/']) = a ++ '/' :: [] := by
            simp [joinSep]
          rw [this, segSepPrefixIff _ _ ha.2 hb.2]
          constructor
          · rintro ⟨h1, -⟩
            refine ⟨by rw [List.cons_prefix_cons]; exact ⟨h1, by simp⟩, ?_⟩
            intro h; injection h with h2 h3; simp at h3
          · rintro ⟨h1, -⟩
            rw [List.cons_prefix_cons] at h1
            exact ⟨h1.1, List.nil_prefix⟩
    | cons a2 A'' =>
      have hja : joinSep ['/'] (a :: a2 :: A'') =
          a ++ '/' :: joinSep ['/'] (a2 :: A'') := by
        simp [joinSep]
      cases B with
      | nil =>
        simp only [joinSep, List.prefix_nil]
        constructor
        · intro h
          have : (joinSep ['/'] (a :: a2 :: A'') ++ ['/']) ≠ [] := by
            rw [hja]; simp
          exact absurd h this
        · rintro ⟨h, -⟩; exact absurd h (by simp)
      | cons b B' =>
        have hb := hB b (by simp)
        cases B' with
        | nil =>
          constructor
          · intro h
            rw [hja] at h
            have : (a ++ '/' :: joinSep ['/'] (a2 :: A'')) ++ ['/'] =
                a ++ '/' :: (joinSep ['/'] (a2 :: A'') ++ ['/']) := by simp
            rw [this] at h
            simp only [joinSep] at h
            exact absurd (h.subset (by simp)) hb.2
          · rintro ⟨h1, -⟩
            rw [List.cons_prefix_cons] at h1
            exact absurd (List.prefix_nil.mp h1.2) (by simp)
        | cons b2 B'' =>
          have hjb : joinSep ['/'] (b :: b2 :: B'') =
              b ++ '/' :: joinSep ['/'] (b2 :: B'') := by
            simp [joinSep]
          have ihA : ∀ x ∈ a2 :: A'', x ≠ [] ∧ '/' ∉ x :=
            fun x hx => hA x (by simp [List.mem_cons] at hx ⊢; tauto)
          have ihB : ∀ x ∈ b2 :: B'', x ≠ [] ∧ '/' ∉ x :=
            fun x hx => hB x (by simp [List.mem_cons] at hx ⊢; tauto)
          have hrw : (joinSep ['/'] (a :: a2 :: A'') ++ ['/']) =
              a ++ '/' :: (joinSep ['/'] (a2 :: A'') ++ ['/']) := by
            rw [hja]; simp
          rw [hrw, hjb, segSepPrefixIff _ _ ha.2 hb.2,
            ih ihA ihB (by simp)]
          constructor
          · rintro ⟨h1, h2, h3⟩
            refine ⟨by rw [List.cons_prefix_cons]; exact ⟨h1, h2⟩, ?_⟩
            intro h; injection h with h4 h5; exact h3 h5
          · rintro ⟨h1, h2⟩
            rw [List.cons_prefix_cons] at h1
            refine ⟨h1.1, h1.2, ?_⟩
            intro h; exact h2 (by rw [h1.1, h])

theorem pathResolve_eq (base target : Str) :
    pathResolve base target = joinAbs (resolveSegs base target) := by
  unfold pathResolve resolveSegs
  by_cases h : isAbs target <;> simp [h]

theorem normSegs_splitSegs_good (p : Str) :
    ∀ x ∈ normSegs (splitSegs p), x ≠ [] ∧ '/' ∉ x := by
  intro x hx
  have h1 := normSegs_mem x hx
  exact ⟨h1.2, (splitSegs_good x h1.1).2⟩

theorem resolveSegs_good (base target : Str) :
    ∀ x ∈ resolveSegs base target, x ≠ [] ∧ '/' ∉ x := by
  intro x hx
  unfold resolveSegs at hx
  have h1 := normSegs_mem x hx
  refine ⟨h1.2, ?_⟩
  rcases h1 with ⟨hmem, -⟩
  by_cases h : isAbs target
  · rw [if_pos h] at hmem
    exact (splitSegs_good x hmem).2
  · rw [if_neg h] at hmem
    rcases List.mem_append.mp hmem with h2 | h2
    · exact (splitSegs_good x h2).2
    · exact (splitSegs_good x h2).2

theorem isEscape_ite (c : Bool) (e r : Str) :
    isEscape (if c then Except.error e else Except.ok r) = c := by
  cases c <;> simp [isEscape]

/-- The string test of the sandbox (root plus trailing separator prefixes
the resolved path) coincides with strict segment nesting, for any nonempty
well-formed root segments. -/
theorem nested_iff_strPrefix {A B : List Str}
    (hA : ∀ x ∈ A, x ≠ [] ∧ '/' ∉ x) (hB : ∀ x ∈ B, x ≠ [] ∧ '/' ∉ x)
    (hAne : A ≠ []) :
    (joinAbs A ++ ['/']).isPrefixOf (joinAbs B) = true ↔
      nestedUnder (joinAbs A) (joinAbs B) := by
  rw [prefixOf_iff]
  unfold nestedUnder
  rw [splitSegs_joinAbs hA, splitSegs_joinAbs hB]
  have h1 : joinAbs A ++ ['/'] = '/' :: (joinSep ['/'] A ++ ['/']) := by
    simp [joinAbs]
  have h2 : joinAbs B = '/' :: joinSep ['/'] B := rfl
  rw [h1, h2, List.cons_prefix_cons]
  constructor
  · rintro ⟨-, h⟩
    exact (joinedPrefixIff hA hB hAne).mp h
  · intro h
    exact ⟨rfl, (joinedPrefixIff hA hB hAne).mpr h⟩

/-- C2 (amended): for every absolute root that does not resolve to the
filesystem root itself, resolution with allowOutsideRoot set to false
fails with an escape error exactly when the resolved absolute path of the
home-expanded target is neither equal to the resolved root nor nested
under it; for the root that resolves to the bare separator the code
additionally rejects every properly nested path (see the counterexample). -/
theorem C2_escape_iff (root target : Str)
    (habs : isAbs root = true)
    (hroot : normalizePath root ≠ strOf "/") :
    isEscape (resolveWithinRoot root target false) = true ↔
      ¬ (pathResolve root (expandHome target) = normalizePath root ∨
        nestedUnder (normalizePath root) (pathResolve root (expandHome target))) := by
  have hGA := normSegs_splitSegs_good root
  have hGB := resolveSegs_good root (expandHome target)
  have hAne : normSegs (splitSegs root) ≠ [] := by
    intro h
    apply hroot
    show joinAbs (normSegs (splitSegs root)) = strOf "/"
    rw [h]
    rfl
  have hRes := pathResolve_eq root (expandHome target)
  have hNorm : normalizePath root = joinAbs (normSegs (splitSegs root)) := rfl
  have hcond : isEscape (resolveWithinRoot root target false) =
      (!(normalizePath root ++ ['/']).isPrefixOf (pathResolve root (expandHome target))
        && !(decide (pathResolve root (expandHome target) = normalizePath root))) := by
    unfold resolveWithinRoot
    rw [isEscape_ite]
    simp
  rw [hcond]
  have hnested := nested_iff_strPrefix hGA hGB hAne
  rw [hNorm, hRes] at *
  constructor
  · intro h
    rw [Bool.and_eq_true, Bool.not_eq_true', Bool.not_eq_true'] at h
    rintro (heq | hnest)
    · rw [heq] at h
      simp at h
    · rw [← hnested] at hnest
      rw [hnest] at h
      simp at h
  · intro h
    rw [Bool.and_eq_true, Bool.not_eq_true', Bool.not_eq_true']
    push_neg at h
    constructor
    · rw [← Bool.not_eq_true]
      intro hp
      exact h.2 (hnested.mp hp)
    · rw [decide_eq_false_iff_not]
      exact h.1

/-- C2 counterexample: with root the filesystem root and target a plain
relative name, the resolved path is strictly nested under the resolved
root, yet the sandbox rejects it with an escape error — the claimed
equivalence fails at this input. -/
theorem C2_counterexample :
    isEscape (resolveWithinRoot (strOf "/") (strOf "a") false) = true ∧
    nestedUnder (normalizePath (strOf "/"))
      (pathResolve (strOf "/") (expandHome (strOf "a"))) ∧
    isAbs (strOf "/") = true := by
  refine ⟨by decide, by decide, by decide⟩

/-- Witness instantiating C2_escape_iff at root /ws and target ../wsx (a
sibling directory whose name merely extends the root name). -/
theorem C2_escape_iff_witness :
    isEscape (resolveWithinRoot (strOf "/ws") (strOf "../wsx") false) = true ↔
      ¬ (pathResolve (strOf "/ws") (expandHome (strOf "../wsx")) =
          normalizePath (strOf "/ws") ∨
        nestedUnder (normalizePath (strOf "/ws"))
          (pathResolve (strOf "/ws") (expandHome (strOf "../wsx")))) :=
  C2_escape_iff (strOf "/ws") (strOf "../wsx") (by decide) (by decide)

/-- If one hyphen-extended known name prefixes the queried name, any
hyphen-extended name incomparable with it cannot. -/
theorem hp_false_of_incomp (b : Str) {a n : Str}
    (hb : (a ++ ['-']).isPrefixOf n = true)
    (h1 : ¬ (a ++ ['-']) <+: (b ++ ['-']))
    (h2 : ¬ (b ++ ['-']) <+: (a ++ ['-'])) :
    (b ++ ['-']).isPrefixOf n = false := by
  rw [← Bool.not_eq_true, prefixOf_iff]
  intro hbp
  rcases prefixTotal (prefixOf_iff.mp hb) hbp with h | h
  · exact h1 h
  · exact h2 h

/-- A hyphen-extended name prefixing a longer matching one also matches. -/
theorem hp_true_of_longer (a : Str) {b n : Str}
    (hb : (b ++ ['-']).isPrefixOf n = true)
    (hab : (a ++ ['-']) <+: (b ++ ['-'])) :
    (a ++ ['-']).isPrefixOf n = true := by
  rw [prefixOf_iff] at hb ⊢
  exact hab.trans hb

/-- A refuted hyphen-prefix match, in boolean form. -/
theorem hp_false_of_not {b n : Str} (h : ¬ (b ++ ['-']) <+: n) :
    (b ++ ['-']).isPrefixOf n = false := by
  rw [← Bool.not_eq_true, prefixOf_iff]
  exact h

/-- The prefix-fallback stage of resolvePricing agrees with the
longest-hyphen-prefix lookup away from the two misordered families. -/
theorem prefixFallbackAgrees (n : Str)
    (h1 : ¬ (strOf "gpt-5.2-pro" ++ ['-']) <+: n)
    (h2 : ¬ (strOf "gpt-5.2-chat-latest" ++ ['-']) <+: n)
    (h3 : ¬ (strOf "gpt-5.1-chat-latest" ++ ['-']) <+: n) :
    (match PREFIX_LIST.find? (fun p => (p ++ ['-']).isPrefixOf n) with
      | some p => alookup DEFAULT_PRICING p
      | none => none) = longestHyphenPrefixEntry n := by
  have f52pro := hp_false_of_not h1
  have f52cl := hp_false_of_not h2
  have f51cl := hp_false_of_not h3
  by_cases b52 : (strOf "gpt-5.2" ++ ['-']).isPrefixOf n = true
  · have f51 := hp_false_of_incomp (strOf "gpt-5.1") b52 (by decide) (by decide)
    have f5p := hp_false_of_incomp (strOf "gpt-5-pro") b52 (by decide) (by decide)
    have f4o := hp_false_of_incomp (strOf "gpt-4o") b52 (by decide) (by decide)
    have f4om := hp_false_of_incomp (strOf "gpt-4o-mini") b52 (by decide) (by decide)
    have f41 := hp_false_of_incomp (strOf "gpt-4.1") b52 (by decide) (by decide)
    have f41m := hp_false_of_incomp (strOf "gpt-4.1-mini") b52 (by decide) (by decide)
    have f41n := hp_false_of_incomp (strOf "gpt-4.1-nano") b52 (by decide) (by decide)
    simp only [PREFIX_LIST, longestHyphenPrefixEntry, KNOWN_MODEL_NAMES,
      DEFAULT_PRICING, List.map, List.filter_cons, List.filter_nil, List.find?,
      b52, f51, f5p, f52pro, f52cl, f51cl, f4o, f4om, f41, f41m, f41n,
      if_true, if_false]
    rfl
  · rw [Bool.not_eq_true] at b52
    by_cases b51 : (strOf "gpt-5.1" ++ ['-']).isPrefixOf n = true
    · have f5p := hp_false_of_incomp (strOf "gpt-5-pro") b51 (by decide) (by decide)
      have f4o := hp_false_of_incomp (strOf "gpt-4o") b51 (by decide) (by decide)
      have f4om := hp_false_of_incomp (strOf "gpt-4o-mini") b51 (by decide) (by decide)
      have f41 := hp_false_of_incomp (strOf "gpt-4.1") b51 (by decide) (by decide)
      have f41m := hp_false_of_incomp (strOf "gpt-4.1-mini") b51 (by decide) (by decide)
      have f41n := hp_false_of_incomp (strOf "gpt-4.1-nano") b51 (by decide) (by decide)
      simp only [PREFIX_LIST, longestHyphenPrefixEntry, KNOWN_MODEL_NAMES,
        DEFAULT_PRICING, List.map, List.filter_cons, List.filter_nil, List.find?,
        b52, b51, f5p, f52pro, f52cl, f51cl, f4o, f4om, f41, f41m, f41n,
        if_true, if_false]
      rfl
    · rw [Bool.not_eq_true] at b51
      by_cases b5p : (strOf "gpt-5-pro" ++ ['-']).isPrefixOf n = true
      · have f4o := hp_false_of_incomp (strOf "gpt-4o") b5p (by decide) (by decide)
        have f4om := hp_false_of_incomp (strOf "gpt-4o-mini") b5p (by decide) (by decide)
        have f41 := hp_false_of_incomp (strOf "gpt-4.1") b5p (by decide) (by decide)
        have f41m := hp_false_of_incomp (strOf "gpt-4.1-mini") b5p (by decide) (by decide)
        have f41n := hp_false_of_incomp (strOf "gpt-4.1-nano") b5p (by decide) (by decide)
        simp only [PREFIX_LIST, longestHyphenPrefixEntry, KNOWN_MODEL_NAMES,
          DEFAULT_PRICING, List.map, List.filter_cons, List.filter_nil, List.find?,
          b52, b51, b5p, f52pro, f52cl, f51cl, f4o, f4om, f41, f41m, f41n,
          if_true, if_false]
        rfl
      · rw [Bool.not_eq_true] at b5p
        by_cases b4om : (strOf "gpt-4o-mini" ++ ['-']).isPrefixOf n = true
        · have t4o := hp_true_of_longer (strOf "gpt-4o") b4om (by decide)
          have f41 := hp_false_of_incomp (strOf "gpt-4.1") b4om (by decide) (by decide)
          have f41m := hp_false_of_incomp (strOf "gpt-4.1-mini") b4om (by decide) (by decide)
          have f41n := hp_false_of_incomp (strOf "gpt-4.1-nano") b4om (by decide) (by decide)
          simp only [PREFIX_LIST, longestHyphenPrefixEntry, KNOWN_MODEL_NAMES,
            DEFAULT_PRICING, List.map, List.filter_cons, List.filter_nil, List.find?,
            b52, b51, b5p, b4om, t4o, f52pro, f52cl, f51cl, f41, f41m, f41n,
            if_true, if_false]
          rfl
        · rw [Bool.not_eq_true] at b4om
          by_cases b4o : (strOf "gpt-4o" ++ ['-']).isPrefixOf n = true
          · have f41 := hp_false_of_incomp (strOf "gpt-4.1") b4o (by decide) (by decide)
            have f41m := hp_false_of_incomp (strOf "gpt-4.1-mini") b4o (by decide) (by decide)
            have f41n := hp_false_of_incomp (strOf "gpt-4.1-nano") b4o (by decide) (by decide)
            simp only [PREFIX_LIST, longestHyphenPrefixEntry, KNOWN_MODEL_NAMES,
              DEFAULT_PRICING, List.map, List.filter_cons, List.filter_nil, List.find?,
              b52, b51, b5p, b4om, b4o, f52pro, f52cl, f51cl, f41, f41m, f41n,
              if_true, if_false]
            rfl
          · rw [Bool.not_eq_true] at b4o
            by_cases b41m : (strOf "gpt-4.1-mini" ++ ['-']).isPrefixOf n = true
            · have t41 := hp_true_of_longer (strOf "gpt-4.1") b41m (by decide)
              have f41n := hp_false_of_incomp (strOf "gpt-4.1-nano") b41m (by decide) (by decide)
              simp only [PREFIX_LIST, longestHyphenPrefixEntry, KNOWN_MODEL_NAMES,
                DEFAULT_PRICING, List.map, List.filter_cons, List.filter_nil,
                List.find?, b52, b51, b5p, b4om, b4o, b41m, t41,
                f52pro, f52cl, f51cl, f41n, if_true, if_false]
              rfl
            · rw [Bool.not_eq_true] at b41m
              by_cases b41n : (strOf "gpt-4.1-nano" ++ ['-']).isPrefixOf n = true
              · have t41 := hp_true_of_longer (strOf "gpt-4.1") b41n (by decide)
                simp only [PREFIX_LIST, longestHyphenPrefixEntry, KNOWN_MODEL_NAMES,
                  DEFAULT_PRICING, List.map, List.filter_cons, List.filter_nil,
                  List.find?, b52, b51, b5p, b4om, b4o, b41m, b41n, t41,
                  f52pro, f52cl, f51cl, if_true, if_false]
                rfl
              · rw [Bool.not_eq_true] at b41n
                by_cases b41 : (strOf "gpt-4.1" ++ ['-']).isPrefixOf n = true
                · simp only [PREFIX_LIST, longestHyphenPrefixEntry,
                    KNOWN_MODEL_NAMES, DEFAULT_PRICING, List.map, List.filter_cons,
                    List.filter_nil, List.find?, b52, b51, b5p, b4om, b4o, b41m,
                    b41n, b41, f52pro, f52cl, f51cl, if_true, if_false]
                  rfl
                · rw [Bool.not_eq_true] at b41
                  simp only [PREFIX_LIST, longestHyphenPrefixEntry,
                    KNOWN_MODEL_NAMES, DEFAULT_PRICING, List.map, List.filter_cons,
                    List.filter_nil, List.find?, b52, b51, b5p, b4om, b4o, b41m,
                    b41n, b41, f52pro, f52cl, f51cl, if_true, if_false]
                  rfl

/-- C3 (amended): for a queried model name with no exact entry (neither a
direct or normalized override hit nor a default-table hit) and outside the
two families that the hardcoded fallback order resolves non-greedily
(names extending gpt-5.2-pro, which the list reaches only after gpt-5.2,
and names extending a chat-latest name, which the list omits),
resolvePricing returns the entry of the longest known model name that,
followed by the hyphen separator, prefixes the normalized queried name —
and null when no known name matches at a hyphen boundary. -/
theorem C3_longest_prefix_amended (m : Str)
    (ov : Option (List (Str × ModelPricing)))
    (hdirect : ∀ o, ov = some o →
      alookup o m = none ∧ alookup o (normalizeModel m) = none)
    (hexact : alookup DEFAULT_PRICING (normalizeModel m) = none)
    (h1 : ¬ (strOf "gpt-5.2-pro" ++ ['-']) <+: normalizeModel m)
    (h2 : ¬ (strOf "gpt-5.2-chat-latest" ++ ['-']) <+: normalizeModel m)
    (h3 : ¬ (strOf "gpt-5.1-chat-latest" ++ ['-']) <+: normalizeModel m) :
    resolvePricing m ov = longestHyphenPrefixEntry (normalizeModel m) := by
  cases ov with
  | none =>
    simp only [resolvePricing]
    rw [hexact]
    exact prefixFallbackAgrees (normalizeModel m) h1 h2 h3
  | some o =>
    rcases hdirect o rfl with ⟨d1, d2⟩
    simp only [resolvePricing, d1, d2, Option.orElse]
    rw [hexact]
    exact prefixFallbackAgrees (normalizeModel m) h1 h2 h3

/-- C3 counterexample: the dated variant of the known pro model
gpt-5.2-pro resolves to the gpt-5.2 entry (21 dollars per million input
tokens versus 1.75), not to the entry of the longest known prefix — the
fallback list tries gpt-5.2 before gpt-5.2-pro. -/
theorem C3_counterexample :
    resolvePricing (strOf "gpt-5.2-pro-2025") none =
      some { input := 1.75, output := 14, cachedInput := some 0.175 } ∧
    longestPlainPrefixEntry (normalizeModel (strOf "gpt-5.2-pro-2025")) =
      some { input := 21, output := 168 } ∧
    ({ input := 1.75, output := 14, cachedInput := some 0.175 } : ModelPricing) ≠
      { input := 21, output := 168 } := by
  refine ⟨rfl, rfl, ?_⟩
  intro h
  have h2 := congrArg ModelPricing.input h
  norm_num at h2

/-- Witness instantiating C3_longest_prefix_amended at a dated
gpt-4o-mini variant with no overrides. -/
theorem C3_longest_prefix_witness :
    resolvePricing (strOf "gpt-4o-mini-2024-07-18") none =
      longestHyphenPrefixEntry (normalizeModel (strOf "gpt-4o-mini-2024-07-18")) :=
  C3_longest_prefix_amended (strOf "gpt-4o-mini-2024-07-18") none
    (fun o ho => by cases ho) (by decide) (by decide) (by decide) (by decide)

/-- C5: summarizeUsage returns null exactly when no usage counters were
supplied; with counters present a summary is always produced, and whenever
a pricing entry resolves the cost equals (billable input times input rate
plus cached tokens times cached rate plus completion tokens times output
rate) over one million, with cached tokens clamped to the prompt count,
billable input the prompt count minus the clamped cached count, and the
cached rate defaulting to the input rate; in particular one million prompt
tokens at two dollars per million cost exactly two dollars, and half a
million cached (at fifty cents per million) plus half a million billable
tokens cost exactly one dollar twenty-five. -/
theorem C5_summarize_usage :
    (∀ (m : Str) (ov : Option (List (Str × ModelPricing))),
      summarizeUsage m none ov = none) ∧
    (∀ (m : Str) (ov : Option (List (Str × ModelPricing))) (u : RawUsage),
      (summarizeUsage m (some u) ov).isSome = true) ∧
    (∀ (m : Str) (ov : Option (List (Str × ModelPricing))) (u : RawUsage)
      (p : ModelPricing), resolvePricing m ov = some p →
      summarizeUsage m (some u) ov = some
        { model := m,
          promptTokens := u.prompt_tokens.getD 0,
          completionTokens := u.completion_tokens.getD 0,
          totalTokens := u.total_tokens.getD
            (u.prompt_tokens.getD 0 + u.completion_tokens.getD 0),
          cachedTokens := u.cached_tokens.getD 0,
          cost := some
            ((((u.prompt_tokens.getD 0
                - min (u.cached_tokens.getD 0) (u.prompt_tokens.getD 0) : ℕ) : ℚ)
                  * p.input
              + ((min (u.cached_tokens.getD 0) (u.prompt_tokens.getD 0) : ℕ) : ℚ)
                  * (p.cachedInput.getD p.input)
              + ((u.completion_tokens.getD 0 : ℕ) : ℚ) * p.output) / 1000000) }) ∧
    ((summarizeUsage (strOf "gpt-4.1")
        (some { prompt_tokens := some 1000000, completion_tokens := some 0,
                cached_tokens := some 0 }) none).bind (fun s => s.cost)
      = some 2) ∧
    ((summarizeUsage (strOf "gpt-4.1")
        (some { prompt_tokens := some 1000000, completion_tokens := some 0,
                cached_tokens := some 500000 }) none).bind (fun s => s.cost)
      = some (5/4 : ℚ)) := by
  have hp41 : resolvePricing (strOf "gpt-4.1") none =
      some { input := 2.0, output := 8.0, cachedInput := some 0.5 } := rfl
  refine ⟨fun m ov => rfl, ?_, ?_, ?_, ?_⟩
  · intro m ov u
    simp only [summarizeUsage]
    cases resolvePricing m ov <;> simp
  · intro m ov u p hp
    simp only [summarizeUsage, hp, Option.some.injEq, UsageSummary.mk.injEq,
      true_and, and_true]
    ring
  · simp only [summarizeUsage, hp41]
    norm_num
  · simp only [summarizeUsage, hp41]
    norm_num

/-- Witness instantiating the priced branch of C5_summarize_usage on the
gpt-4o entry with 100 prompt, 10 completion and 40 cached tokens. -/
theorem C5_summarize_usage_witness :
    summarizeUsage (strOf "gpt-4o")
      (some { prompt_tokens := some 100, completion_tokens := some 10,
              cached_tokens := some 40 }) none = some
      { model := strOf "gpt-4o", promptTokens := 100, completionTokens := 10,
        totalTokens := 110, cachedTokens := 40, cost := some (3/10000 : ℚ) } := by
  have h := C5_summarize_usage.2.2.1 (strOf "gpt-4o") none
    { prompt_tokens := some 100, completion_tokens := some 10,
      cached_tokens := some 40 }
    { input := 2.5, output := 10, cachedInput := some 1.25 } rfl
  rw [h]
  norm_num

theorem finalUsageEvents_spec (r : UsageSummary) :
    (finalUsageEvents r ≠ [] ↔ r.totalTokens ≠ 0) ∧
    (r.totalTokens ≠ 0 → finalUsageEvents r = [(UsagePhase.run, r)]) := by
  unfold finalUsageEvents
  by_cases h : r.totalTokens > 0
  · rw [if_pos h]
    refine ⟨⟨fun _ => by omega, fun _ => by simp⟩, fun _ => rfl⟩
  · rw [if_neg h]
    refine ⟨⟨fun hc => absurd rfl hc, fun hc => by omega⟩, fun hc => by omega⟩

/-- C9: the final phase-run usage event exists exactly when the
accumulated run token total is nonzero, it carries the accumulated
summary, whose prompt, completion, total and cached counts are the sums of
the corresponding counts of the contributing plan-phase and
followup-phase summaries, and whose cost is the sum of the costs of
exactly those contributing summaries that carried one (unset when none
did). -/
theorem C9_run_usage_total (model : Str) (pu fu : Option UsageSummary) :
    (finalUsageEvents (runUsageTotal model pu fu) ≠ [] ↔
      (runUsageTotal model pu fu).totalTokens ≠ 0) ∧
    ((runUsageTotal model pu fu).totalTokens ≠ 0 →
      finalUsageEvents (runUsageTotal model pu fu) =
        [(UsagePhase.run, runUsageTotal model pu fu)]) ∧
    (runUsageTotal model pu fu).promptTokens =
      ((pu.toList ++ fu.toList).map (fun s => s.promptTokens)).sum ∧
    (runUsageTotal model pu fu).completionTokens =
      ((pu.toList ++ fu.toList).map (fun s => s.completionTokens)).sum ∧
    (runUsageTotal model pu fu).totalTokens =
      ((pu.toList ++ fu.toList).map (fun s => s.totalTokens)).sum ∧
    (runUsageTotal model pu fu).cachedTokens =
      ((pu.toList ++ fu.toList).map (fun s => s.cachedTokens)).sum ∧
    (runUsageTotal model pu fu).cost =
      (if ((pu.toList ++ fu.toList).filterMap (fun s => s.cost)) = [] then none
        else some ((pu.toList ++ fu.toList).filterMap (fun s => s.cost)).sum) := by
  refine ⟨(finalUsageEvents_spec _).1, (finalUsageEvents_spec _).2,
    ?_, ?_, ?_, ?_, ?_⟩
  · rcases pu with _ | u <;> rcases fu with _ | v <;>
      simp [runUsageTotal, accumUsage, emptyRunUsage]
  · rcases pu with _ | u <;> rcases fu with _ | v <;>
      simp [runUsageTotal, accumUsage, emptyRunUsage]
  · rcases pu with _ | u <;> rcases fu with _ | v <;>
      simp [runUsageTotal, accumUsage, emptyRunUsage]
  · rcases pu with _ | u <;> rcases fu with _ | v <;>
      simp [runUsageTotal, accumUsage, emptyRunUsage]
  · rcases pu with _ | u <;> rcases fu with _ | v
    · simp [runUsageTotal, emptyRunUsage]
    · rcases hv : v.cost with _ | d <;>
        simp [runUsageTotal, accumUsage, emptyRunUsage, hv]
    · rcases hu : u.cost with _ | c <;>
        simp [runUsageTotal, accumUsage, emptyRunUsage, hu]
    · rcases hu : u.cost with _ | c <;> rcases hv : v.cost with _ | d <;>
        simp [runUsageTotal, accumUsage, emptyRunUsage, hu, hv]

/-- C10: a shell_command dispatch records exactly one spawn, in the
workspace root, carrying the action command and args; it runs through the
system shell exactly when the args list is empty and the command string
contains a space character, and otherwise the command is spawned directly
with its args list and no shell interpretation. -/
theorem C10_shell_selection (ctx : ToolContext) (w : World) (cmd : Str)
    (args : List Str) (reason : Option Str) :
    (dispatch ctx (AgentAction.shell_command cmd args reason) w).1.spawned =
      w.spawned ++
        [Spawn.mk cmd args (args.isEmpty && cmd.contains ' ') ctx.root] ∧
    ((args.isEmpty && cmd.contains ' ') = true ↔ args = [] ∧ ' ' ∈ cmd) := by
  constructor
  · rfl
  · rw [Bool.and_eq_true, List.isEmpty_iff]
    constructor
    · rintro ⟨h1, h2⟩
      exact ⟨h1, by simpa using h2⟩
    · rintro ⟨h1, h2⟩
      exact ⟨h1, by simpa using h2⟩

/-- C1: the orchestrator hardcodes allowOutsideRoot to true in the tool
context it builds, regardless of the configuration; consequently a run
whose configuration leaves the allow-outside-root flag off still resolves
and writes a path outside the workspace root. The concrete run below
executes create_file on ../evil.txt under root /ws with an OK log entry,
after which /evil.txt exists outside the root — no escape error occurs. -/
theorem C1_sandbox_disabled :
    (∀ (root : Str) (config : DarellConfig),
      (agentCtx root config).allowOutsideRoot = some true) ∧
    (runActions true (fun _ => true)
        (agentCtx (strOf "/ws") { allowOutsideRoot := some false })
        [AgentAction.create_file (strOf "../evil.txt") (strOf "evil") none none]
        {}).2 = [strOf "OK create_file: ../evil.txt\nCreated ../evil.txt"] ∧
    lookupFS (runActions true (fun _ => true)
        (agentCtx (strOf "/ws") { allowOutsideRoot := some false })
        [AgentAction.create_file (strOf "../evil.txt") (strOf "evil") none none]
        {}).1.fs (strOf "/evil.txt") = some (strOf "evil") := by
  refine ⟨fun root config => rfl, by decide, by decide⟩

/-- C6: with the target path resolving successfully, create_file without
overwrite on an existing path fails with the ALREADY_EXISTS error and
returns the world unchanged (the write is never reached), while
create_file with overwrite set always succeeds and afterwards the stored
content equals exactly the supplied content. -/
theorem C6_create_file (ctx : ToolContext) (w : World) (target content p : Str)
    (hres : resolveWithinRootOpt ctx.root target ctx.allowOutsideRoot = .ok p) :
    ((lookupFS w.fs p).isSome = true →
      createFileTool ctx w target content false =
        (w, .error (strOf "File already exists: " ++ target))) ∧
    (createFileTool ctx w target content true).2 =
      .ok (strOf "Created " ++ target) ∧
    lookupFS (createFileTool ctx w target content true).1.fs p = some content := by
  unfold createFileTool
  refine ⟨?_, ?_, ?_⟩
  · intro hex
    simp [hres, hex]
  · simp [hres]
  · simp [hres, fsWrite, lookupFS, alookup]

/-- Witness instantiating C6_create_file on a world that already holds
/ws/a.txt. -/
theorem C6_create_file_witness :
    (createFileTool { root := strOf "/ws" }
        { fs := [(strOf "/ws/a.txt", strOf "old")] } (strOf "a.txt")
        (strOf "new") false =
      ({ fs := [(strOf "/ws/a.txt", strOf "old")] },
        .error (strOf "File already exists: " ++ strOf "a.txt"))) ∧
    lookupFS (createFileTool { root := strOf "/ws" }
        { fs := [(strOf "/ws/a.txt", strOf "old")] } (strOf "a.txt")
        (strOf "new") true).1.fs (strOf "/ws/a.txt") = some (strOf "new") := by
  have h := C6_create_file { root := strOf "/ws" }
    { fs := [(strOf "/ws/a.txt", strOf "old")] } (strOf "a.txt") (strOf "new")
    (strOf "/ws/a.txt") (by decide)
  exact ⟨h.1 (by decide), h.2.2⟩

theorem runActions_append (auto : Bool) (confirm : AgentAction → Bool)
    (ctx : ToolContext) (l1 l2 : List AgentAction) (w : World) :
    runActions auto confirm ctx (l1 ++ l2) w =
      ((runActions auto confirm ctx l2 (runActions auto confirm ctx l1 w).1).1,
        (runActions auto confirm ctx l1 w).2 ++
          (runActions auto confirm ctx l2 (runActions auto confirm ctx l1 w).1).2) := by
  induction l1 generalizing w with
  | nil => simp [runActions]
  | cons a rest ih =>
    simp only [List.cons_append, runActions, List.append_eq]
    rw [ih]

/-- C7: when an approved action's adapter raises an error, the loop
catches it, appends exactly one ERROR log entry carrying the error
message for that action, and the remaining actions of the plan still
execute in their original order from the post-error world — the run is
not aborted. -/
theorem C7_error_continues (auto : Bool) (confirm : AgentAction → Bool)
    (ctx : ToolContext) (pre post : List AgentAction) (a : AgentAction)
    (w w1 w2 : World) (log1 : List Str) (msg : Str)
    (hpre : runActions auto confirm ctx pre w = (w1, log1))
    (happrove : auto = true ∨ confirm a = true)
    (herr : dispatch ctx a w1 = (w2, .error msg)) :
    runActions auto confirm ctx (pre ++ a :: post) w =
      ((runActions auto confirm ctx post w2).1,
        log1 ++ (strOf "ERROR " ++ describe a ++ ['\n'] ++ msg)
          :: (runActions auto confirm ctx post w2).2) := by
  rw [runActions_append, hpre]
  have hgate : (!auto && !confirm a) = false := by
    rcases happrove with h | h <;> simp [h]
  have hstep : stepAction auto confirm ctx a w1 =
      (w2, strOf "ERROR " ++ describe a ++ ['\n'] ++ msg) := by
    unfold stepAction
    simp [hgate, herr]
  simp only [runActions, hstep]

/-- C8: with auto-approval off, a declined action's adapter is never
dispatched: the loop records exactly one SKIPPED log entry for it, leaves
the world (filesystem and spawned processes) untouched, and the remaining
actions execute in order from that same world. -/
theorem C8_skip_no_side_effect (confirm : AgentAction → Bool)
    (ctx : ToolContext) (pre post : List AgentAction) (a : AgentAction)
    (w w1 : World) (log1 : List Str)
    (hpre : runActions false confirm ctx pre w = (w1, log1))
    (hdecl : confirm a = false) :
    runActions false confirm ctx (pre ++ a :: post) w =
      ((runActions false confirm ctx post w1).1,
        log1 ++ (strOf "SKIPPED " ++ describe a)
          :: (runActions false confirm ctx post w1).2) := by
  rw [runActions_append, hpre]
  have hstep : stepAction false confirm ctx a w1 =
      (w1, strOf "SKIPPED " ++ describe a) := by
    unfold stepAction
    simp [hdecl]
  simp only [runActions, hstep]

/-- Witness instantiating C7_error_continues: an auto-approved create_file
on an existing path raises ALREADY_EXISTS, is logged as one ERROR entry,
and the following delete_file still runs. -/
theorem C7_error_continues_witness :
    runActions true (fun _ => true) ⟨strOf "/ws", none⟩
      ([] ++ AgentAction.create_file (strOf "a.txt") (strOf "new") none none ::
        [AgentAction.delete_file (strOf "a.txt") none])
      { fs := [(strOf "/ws/a.txt", strOf "old")] } =
    ((runActions true (fun _ => true) ⟨strOf "/ws", none⟩
        [AgentAction.delete_file (strOf "a.txt") none]
        { fs := [(strOf "/ws/a.txt", strOf "old")] }).1,
      [] ++ (strOf "ERROR " ++
          describe (AgentAction.create_file (strOf "a.txt") (strOf "new") none none)
          ++ ['\n'] ++ (strOf "File already exists: " ++ strOf "a.txt"))
        :: (runActions true (fun _ => true) ⟨strOf "/ws", none⟩
          [AgentAction.delete_file (strOf "a.txt") none]
          { fs := [(strOf "/ws/a.txt", strOf "old")] }).2) :=
  C7_error_continues true (fun _ => true) ⟨strOf "/ws", none⟩ []
    [AgentAction.delete_file (strOf "a.txt") none]
    (AgentAction.create_file (strOf "a.txt") (strOf "new") none none)
    { fs := [(strOf "/ws/a.txt", strOf "old")] }
    { fs := [(strOf "/ws/a.txt", strOf "old")] }
    { fs := [(strOf "/ws/a.txt", strOf "old")] }
    [] (strOf "File already exists: " ++ strOf "a.txt")
    rfl (Or.inl rfl) rfl

/-- Witness instantiating C8_skip_no_side_effect: a declined shell_command
is never spawned, is logged as one SKIPPED entry, and the following
delete_file still runs from the unchanged world. -/
theorem C8_skip_no_side_effect_witness :
    runActions false (fun _ => false) ⟨strOf "/ws", none⟩
      ([] ++ AgentAction.shell_command (strOf "rm -rf /") [] none ::
        [AgentAction.delete_file (strOf "a.txt") none]) {} =
    ((runActions false (fun _ => false) ⟨strOf "/ws", none⟩
        [AgentAction.delete_file (strOf "a.txt") none] {}).1,
      [] ++ (strOf "SKIPPED " ++
          describe (AgentAction.shell_command (strOf "rm -rf /") [] none))
        :: (runActions false (fun _ => false) ⟨strOf "/ws", none⟩
          [AgentAction.delete_file (strOf "a.txt") none] {}).2) :=
  C8_skip_no_side_effect (fun _ => false) ⟨strOf "/ws", none⟩ []
    [AgentAction.delete_file (strOf "a.txt") none]
    (AgentAction.shell_command (strOf "rm -rf /") [] none)
    {} {} [] rfl rfl

theorem findIdx_le_length {s f : Str} {i : Nat} (h : findIdx s f = some i) :
    i ≤ s.length := by
  induction s generalizing i with
  | nil =>
    by_cases hp : f.isPrefixOf ([] : Str) = true
    · rw [findIdx, if_pos hp] at h; cases h; omega
    · rw [findIdx, if_neg hp] at h
      cases f with
      | nil => simp at hp
      | cons c t => simp at h
  | cons c t ih =>
    by_cases hp : f.isPrefixOf (c :: t) = true
    · rw [findIdx, if_pos hp] at h; cases h; omega
    · rw [findIdx, if_neg hp] at h
      cases hi : findIdx t f with
      | none => rw [hi] at h; simp at h
      | some j =>
        rw [hi] at h
        simp at h
        subst h
        have := ih hi
        simp only [List.length_cons]
        omega

theorem findIdx_bound {s f : Str} {i : Nat} (h : findIdx s f = some i) :
    i + f.length ≤ s.length := by
  have h1 := findIdx_le_length h
  have h2 := prefixOf_iff.mp (findIdx_found h)
  have h3 := h2.length_le
  simp only [List.length_drop] at h3
  omega

theorem countOccGo_irrel (f : Str) (hf : f ≠ []) :
    ∀ (fuel fuel' : Nat) (s : Str), s.length < fuel → s.length < fuel' →
      countOccGo f fuel s = countOccGo f fuel' s := by
  intro fuel
  induction fuel with
  | zero => intro fuel' s h1 _; omega
  | succ fuel ih =>
    intro fuel' s h1 h2
    cases fuel' with
    | zero => omega
    | succ fuel' =>
      rw [countOccGo, countOccGo]
      cases hidx : findIdx s f with
      | none => rfl
      | some i =>
        have hb := findIdx_bound hidx
        have hflen : 0 < f.length := List.length_pos.mpr hf
        have hlen : (s.drop (i + f.length)).length < s.length := by
          simp only [List.length_drop]; omega
        simp only [ih fuel' (s.drop (i + f.length)) (by omega) (by omega)]

theorem countOcc_eq {s f : Str} (hf : f ≠ []) :
    countOcc s f = match findIdx s f with
      | none => 0
      | some i => 1 + countOcc (s.drop (i + f.length)) f := by
  unfold countOcc
  rw [if_neg (by simp [hf])]
  rw [countOccGo]
  cases hidx : findIdx s f with
  | none => rfl
  | some i =>
    have hb := findIdx_bound hidx
    have hflen : 0 < f.length := List.length_pos.mpr hf
    have hgo := countOccGo_irrel f hf s.length ((s.drop (i + f.length)).length + 1)
      (s.drop (i + f.length)) (by simp only [List.length_drop]; omega) (by omega)
    simp [hgo, hf]

theorem occursIn_iff_drop {f s : Str} : occursIn f s ↔ ∃ j, f <+: s.drop j := by
  constructor
  · rintro ⟨u, v, rfl⟩
    refine ⟨u.length, ?_⟩
    rw [List.append_assoc, List.drop_left]
    exact List.prefix_append f v
  · rintro ⟨j, t, ht⟩
    refine ⟨s.take j, t, ?_⟩
    rw [List.append_assoc, ht, List.take_append_drop]

theorem not_occursIn_of_findIdx_none {f s : Str} (h : findIdx s f = none) :
    ¬ occursIn f s := by
  intro hocc
  rcases occursIn_iff_drop.mp hocc with ⟨j, hj⟩
  exact findIdx_none h j (prefixOf_iff.mpr hj)

theorem countOcc_eq_zero_iff {s f : Str} (hf : f ≠ []) :
    countOcc s f = 0 ↔ ¬ occursIn f s := by
  rw [countOcc_eq hf]
  cases hidx : findIdx s f with
  | none => simp [not_occursIn_of_findIdx_none hidx]
  | some i =>
    show 1 + countOcc (s.drop (i + f.length)) f = 0 ↔ ¬ occursIn f s
    constructor
    · intro h
      exact absurd h (by omega)
    · intro h
      exfalso
      apply h
      exact occursIn_iff_drop.mpr ⟨i, prefixOf_iff.mp (findIdx_found hidx)⟩

theorem not_occursIn_take_findIdx {s f : Str} {i : Nat} (hf : f ≠ [])
    (h : findIdx s f = some i) : ¬ occursIn f (s.take i) := by
  rintro ⟨u, v, huv⟩
  have hflen : 0 < f.length := List.length_pos.mpr hf
  have hlt : u.length < i := by
    have := congrArg List.length huv
    simp only [List.length_take, List.length_append] at this
    have h2 := findIdx_le_length h
    omega
  apply findIdx_min h u.length hlt
  rw [prefixOf_iff]
  have hs : s = u ++ f ++ (v ++ s.drop i) := by
    conv_lhs => rw [← List.take_append_drop i s]
    rw [huv]
    simp [List.append_assoc]
  rw [hs, List.append_assoc, List.drop_left]
  exact List.prefix_append f _

theorem getSubstitution_no_dollar {m b a r : Str} (h : '$' ∉ r) :
    getSubstitution m b a r = r := by
  induction r with
  | nil => rfl
  | cons c t ih =>
    have hc : c ≠ '$' := fun hcc => h (by simp [hcc])
    have ht : '$' ∉ t := fun htt => h (by simp [htt])
    rw [getSubstitution.eq_def]
    simp [hc, ih ht]

theorem occursIn_append_cases {f x y : Str} (h : occursIn f (x ++ y)) :
    occursIn f x ∨ occursIn f y ∨
      ∃ f1 f2, f = f1 ++ f2 ∧ f1 ≠ [] ∧ f2 ≠ [] ∧ f1 <:+ x ∧ f2 <+: y := by
  rcases h with ⟨u, v, huv⟩
  rw [List.append_assoc] at huv
  rcases List.append_eq_append_iff.mp huv with ⟨a, ha1, ha2⟩ | ⟨c, hc1, hc2⟩
  · refine Or.inr (Or.inl ⟨a, v, ?_⟩)
    rw [ha2, List.append_assoc]
  · rcases List.append_eq_append_iff.mp hc2 with ⟨a2, hd1, hd2⟩ | ⟨c2, he1, he2⟩
    · refine Or.inl ⟨u, a2, ?_⟩
      rw [hc1, hd1, List.append_assoc]
    · by_cases hce : c = []
      · subst hce
        refine Or.inr (Or.inl ⟨[], v, ?_⟩)
        simp only [List.nil_append] at he1
        rw [he2, ← he1]
        simp
      · by_cases hc2e : c2 = []
        · subst hc2e
          refine Or.inl ⟨u, [], ?_⟩
          rw [List.append_nil] at he1
          rw [hc1, ← he1, List.append_nil]
        · exact Or.inr (Or.inr ⟨c, c2, he1, hce, hc2e,
            ⟨u, hc1.symm⟩, ⟨v, he2.symm⟩⟩)

theorem not_occursIn_join {f r : Str} (hf : f ≠ []) (hr : r ≠ [])
    (hd : ∀ c ∈ f, c ∉ r) :
    ∀ (L : List Str), (∀ p ∈ L, ¬ occursIn f p) →
      ¬ occursIn f (joinSep r L) := by
  intro L
  induction L with
  | nil =>
    intro _
    rintro ⟨u, v, huv⟩
    simp only [joinSep] at huv
    rcases List.append_eq_nil.mp huv.symm with ⟨h1, -⟩
    rcases List.append_eq_nil.mp h1 with ⟨-, h2⟩
    exact hf h2
  | cons p L' ih =>
    intro hL
    cases L' with
    | nil => simpa [joinSep] using hL p (by simp)
    | cons q L'' =>
      intro hocc
      have hjoin : joinSep r (p :: q :: L'') =
          p ++ (r ++ joinSep r (q :: L'')) := by
        simp [joinSep, List.append_assoc]
      rw [hjoin] at hocc
      rcases occursIn_append_cases hocc with h | h |
        ⟨f1, f2, hf12, hf1, hf2, hsuf, hpre⟩
      · exact hL p (by simp) h
      · rcases occursIn_append_cases h with h2 | h2 |
          ⟨g1, g2, hg12, hg1, hg2, hsuf2, hpre2⟩
        · rcases h2 with ⟨u, v, huv⟩
          rcases List.exists_cons_of_ne_nil hf with ⟨fc, ft, rfl⟩
          exact hd fc (by simp) (by rw [huv]; simp)
        · exact ih (fun x hx => hL x (by simp [hx])) h2
        · rcases List.exists_cons_of_ne_nil hg1 with ⟨c, t, rfl⟩
          refine hd c (by rw [hg12]; simp) (hsuf2.subset (by simp))
      · rcases List.exists_cons_of_ne_nil hf2 with ⟨c, t, rfl⟩
        rcases List.exists_cons_of_ne_nil hr with ⟨rc, rt, hrr⟩
        rw [hrr, List.cons_append] at hpre
        have hceq := (List.cons_prefix_cons.mp hpre).1
        refine hd c (by rw [hf12]; simp) ?_
        rw [hrr, hceq]
        simp

theorem jsSplitGo_pieces (f : Str) (hf : f ≠ []) :
    ∀ (fuel : Nat) (s : Str), s.length < fuel →
      ∀ p ∈ jsSplitGo f fuel s, ¬ occursIn f p := by
  intro fuel
  induction fuel with
  | zero => intro s h p hp; exact absurd h (by omega)
  | succ fuel ih =>
    intro s hs p hp
    rw [jsSplitGo] at hp
    cases hidx : findIdx s f with
    | none =>
      rw [hidx] at hp
      simp at hp
      subst hp
      exact not_occursIn_of_findIdx_none hidx
    | some i =>
      rw [hidx] at hp
      rcases List.mem_cons.mp hp with h | h
      · subst h
        exact not_occursIn_take_findIdx hf hidx
      · have hb := findIdx_bound hidx
        have hflen : 0 < f.length := List.length_pos.mpr hf
        exact ih (s.drop (i + f.length))
          (by simp only [List.length_drop]; omega) p h

theorem jsSplit_pieces {s f : Str} (hf : f ≠ []) :
    ∀ p ∈ jsSplit s f, ¬ occursIn f p := by
  unfold jsSplit
  rw [if_neg (by simp [hf])]
  exact jsSplitGo_pieces f hf (s.length + 1) s (by omega)

theorem countOcc_join_zero {s f r : Str} (hf : f ≠ []) (hr : r ≠ [])
    (hd : ∀ c ∈ f, c ∉ r) :
    countOcc (joinSep r (jsSplit s f)) f = 0 := by
  rw [countOcc_eq_zero_iff hf]
  exact not_occursIn_join hf hr hd _ (jsSplit_pieces hf)

theorem prefix_of_prefix_append {f a b : Str} (h : f <+: a ++ b)
    (hlen : f.length ≤ a.length) : f <+: a := by
  have h1 := List.prefix_iff_eq_take.mp h
  rw [List.take_append_of_le_length hlen] at h1
  rw [h1]
  exact List.take_prefix _ _

theorem drop_prefix_append {f a b : Str} (h : f <+: a ++ b) :
    f.drop a.length <+: b := by
  rcases h with ⟨t, ht⟩
  by_cases hla : a.length ≤ f.length
  · refine ⟨t, ?_⟩
    have h2 : (f ++ t).drop a.length = (a ++ b).drop a.length := by rw [ht]
    rw [List.drop_left] at h2
    rw [List.drop_append_of_le_length hla] at h2
    exact h2
  · push_neg at hla
    have h2 : f.drop a.length = [] := List.drop_eq_nil_of_le (by omega)
    rw [h2]
    exact List.nil_prefix

theorem drop_append_mid (a b : Str) (k : Nat) :
    (a ++ b).drop (a.length + k) = b.drop k := by
  simp

theorem findIdx_shift {x y f : Str}
    (h : ∀ j, j < x.length → ¬ f.isPrefixOf ((x ++ y).drop j) = true) :
    findIdx (x ++ y) f = (findIdx y f).map (· + x.length) := by
  induction x with
  | nil =>
    simp only [List.nil_append, List.length_nil]
    cases findIdx y f <;> simp
  | cons c t ih =>
    have h0 : ¬ f.isPrefixOf (c :: (t ++ y)) = true := by
      have := h 0 (by simp)
      simpa using this
    rw [List.cons_append, findIdx, if_neg h0]
    have hrec := ih (fun j hj => by
      have := h (j + 1) (by simp only [List.length_cons]; omega)
      simpa using this)
    rw [hrec]
    cases findIdx y f with
    | none => rfl
    | some k => simp only [Option.map_map, Option.map]; simp; omega

theorem no_start_in_sandwich {f r pre : Str} (post : Str) (hf : f ≠ []) (hr : r ≠ [])
    (hd : ∀ c ∈ f, c ∉ r) (hpre : ¬ occursIn f pre) :
    ∀ j, j < (pre ++ r).length →
      ¬ f.isPrefixOf (((pre ++ r) ++ post).drop j) = true := by
  intro j hj hP
  rw [prefixOf_iff] at hP
  rw [List.drop_append_of_le_length (le_of_lt hj)] at hP
  by_cases hjp : j < pre.length
  · rw [List.drop_append_of_le_length (by omega)] at hP
    by_cases hfits : f.length ≤ pre.length - j
    · have hP2 : f <+: pre.drop j := by
        rw [List.append_assoc] at hP
        exact prefix_of_prefix_append hP (by simp only [List.length_drop]; omega)
      apply hpre
      rcases hP2 with ⟨t, ht⟩
      refine ⟨pre.take j, t, ?_⟩
      conv_lhs => rw [← List.take_append_drop j pre, ← ht]
      rw [List.append_assoc]
    · push_neg at hfits
      have hdp : f.drop (pre.drop j).length <+: r ++ post := by
        rw [List.append_assoc] at hP
        exact drop_prefix_append hP
      have hne : f.drop (pre.drop j).length ≠ [] := by
        intro hnil
        have h2 := congrArg List.length hnil
        simp only [List.length_drop] at h2
        simp only [List.length_nil] at h2
        omega
      rcases List.exists_cons_of_ne_nil hne with ⟨c, t2, hct⟩
      rcases List.exists_cons_of_ne_nil hr with ⟨rc, rt, hrr⟩
      rw [hct, hrr, List.cons_append] at hdp
      have hceq := (List.cons_prefix_cons.mp hdp).1
      apply hd c
      · have hcm : c ∈ f.drop (pre.drop j).length := by rw [hct]; simp
        exact List.drop_subset _ _ hcm
      · rw [hrr, hceq]
        simp
  · push_neg at hjp
    have hrew : (pre ++ r).drop j = r.drop (j - pre.length) := by
      have hk : j = pre.length + (j - pre.length) := by omega
      conv_lhs => rw [hk]
      rw [drop_append_mid]
    rw [hrew] at hP
    have hkr : j - pre.length < r.length := by
      simp only [List.length_append] at hj
      omega
    have hdropne : r.drop (j - pre.length) ≠ [] := by
      intro hnil
      have h2 := congrArg List.length hnil
      simp only [List.length_drop, List.length_nil] at h2
      omega
    rcases List.exists_cons_of_ne_nil hdropne with ⟨rc, rt, hrct⟩
    rcases List.exists_cons_of_ne_nil hf with ⟨fc, ft, hfc⟩
    rw [hfc, hrct, List.cons_append] at hP
    have hceq := (List.cons_prefix_cons.mp hP).1
    apply hd fc
    · rw [hfc]; simp
    · rw [hceq]
      have hmem : rc ∈ r.drop (j - pre.length) := by rw [hrct]; simp
      exact List.drop_subset _ _ hmem

theorem countOcc_sandwich {f r pre post : Str} (hf : f ≠ []) (hr : r ≠ [])
    (hd : ∀ c ∈ f, c ∉ r) (hpre : ¬ occursIn f pre) :
    countOcc ((pre ++ r) ++ post) f = countOcc post f := by
  have hshift := findIdx_shift (no_start_in_sandwich post hf hr hd hpre)
  rw [countOcc_eq hf, hshift]
  cases hidx : findIdx post f with
  | none =>
    conv_rhs => rw [countOcc_eq hf, hidx]
    rfl
  | some i =>
    conv_rhs => rw [countOcc_eq hf, hidx]
    show 1 + countOcc (((pre ++ r) ++ post).drop (i + (pre ++ r).length + f.length)) f
      = 1 + countOcc (post.drop (i + f.length)) f
    have harg : i + (pre ++ r).length + f.length =
        (pre ++ r).length + (i + f.length) := by omega
    rw [harg, drop_append_mid]

/-- C4 (amended): for a file whose content contains the search string at
least once, with the non-overlap side condition made precise as: the
replacement is nonempty and shares no character with the (nonempty) search
string. Then replace-all leaves zero occurrences of the search string; and
single replace leaves exactly one fewer occurrence provided the
replacement contains no dollar character (JS replace interprets dollar
escapes in the replacement, see the counterexample). -/
theorem C4_replace_counts (ctx : ToolContext) (w : World)
    (target f r p raw : Str)
    (hres : resolveWithinRootOpt ctx.root target ctx.allowOutsideRoot = .ok p)
    (hfile : lookupFS w.fs p = some raw)
    (hf : f ≠ []) (hr : r ≠ []) (hd : ∀ c ∈ f, c ∉ r)
    (hocc : 1 ≤ countOcc raw f) :
    (∃ out, lookupFS (replaceInFileTool ctx w target f r true).1.fs p = some out ∧
      countOcc out f = 0) ∧
    ('$' ∉ r →
      ∃ out, lookupFS (replaceInFileTool ctx w target f r false).1.fs p = some out ∧
        countOcc out f = countOcc raw f - 1) := by
  constructor
  · refine ⟨joinSep r (jsSplit raw f), ?_, countOcc_join_zero hf hr hd⟩
    simp only [replaceInFileTool, hres, hfile]
    simp [fsWrite, lookupFS, alookup]
  · intro hnd
    cases hidx : findIdx raw f with
    | none =>
      have hc0 : countOcc raw f = 0 := by rw [countOcc_eq hf, hidx]
      omega
    | some i =>
      refine ⟨jsReplace raw f r, ?_, ?_⟩
      · simp only [replaceInFileTool, hres, hfile]
        simp [fsWrite, lookupFS, alookup]
      · have hsub : getSubstitution f (raw.take i) (raw.drop (i + f.length)) r
            = r := getSubstitution_no_dollar hnd
        have hrepl : jsReplace raw f r =
            (raw.take i ++ r) ++ raw.drop (i + f.length) := by
          simp only [jsReplace, hidx, hsub, List.append_assoc]
        rw [hrepl,
          countOcc_sandwich hf hr hd (not_occursIn_take_findIdx hf hidx)]
        have hc2 : countOcc raw f = 1 + countOcc (raw.drop (i + f.length)) f := by
          rw [countOcc_eq hf, hidx]
        omega

/-- C4 counterexample: content a, search a, replacement the two-character
dollar-ampersand string (which differs from the search and shares no
character with it), replaceAll false. JS dollar substitution reinserts the
match, so the result still contains one occurrence of the search string
where the claim demands zero. -/
theorem C4_counterexample :
    lookupFS (replaceInFileTool ⟨strOf "/ws", none⟩
        { fs := [(strOf "/ws/a.txt", strOf "a")] } (strOf "a.txt")
        (strOf "a") (strOf "$&") false).1.fs (strOf "/ws/a.txt") =
      some (strOf "a") ∧
    countOcc (strOf "a") (strOf "a") = 1 ∧
    strOf "a" ≠ strOf "$&" ∧
    (∀ c ∈ strOf "a", c ∉ strOf "$&") := by
  refine ⟨by decide, by decide, by decide, by decide⟩

/-- Witness instantiating C4_replace_counts on content ab ab, search ab,
replacement c. -/
theorem C4_replace_counts_witness :
    (∃ out, lookupFS (replaceInFileTool ⟨strOf "/ws", none⟩
        { fs := [(strOf "/ws/a.txt", strOf "ab ab")] } (strOf "a.txt")
        (strOf "ab") (strOf "c") true).1.fs (strOf "/ws/a.txt") = some out ∧
      countOcc out (strOf "ab") = 0) ∧
    (∃ out, lookupFS (replaceInFileTool ⟨strOf "/ws", none⟩
        { fs := [(strOf "/ws/a.txt", strOf "ab ab")] } (strOf "a.txt")
        (strOf "ab") (strOf "c") false).1.fs (strOf "/ws/a.txt") = some out ∧
      countOcc out (strOf "ab") = countOcc (strOf "ab ab") (strOf "ab") - 1) := by
  have h := C4_replace_counts ⟨strOf "/ws", none⟩
    { fs := [(strOf "/ws/a.txt", strOf "ab ab")] } (strOf "a.txt")
    (strOf "ab") (strOf "c") (strOf "/ws/a.txt") (strOf "ab ab")
    (by decide) (by decide) (by decide) (by decide) (by decide) (by decide)
  exact ⟨h.1, h.2 (by decide)⟩

/-- Witness instantiating C9_run_usage_total with a plan summary of three
total tokens and no followup summary. -/
theorem C9_run_usage_total_witness :
    finalUsageEvents (runUsageTotal (strOf "m")
      (some { model := strOf "m", promptTokens := 1, completionTokens := 2,
              totalTokens := 3, cachedTokens := 0 }) none) =
      [(UsagePhase.run, runUsageTotal (strOf "m")
        (some { model := strOf "m", promptTokens := 1, completionTokens := 2,
                totalTokens := 3, cachedTokens := 0 }) none)] :=
  (C9_run_usage_total (strOf "m")
    (some { model := strOf "m", promptTokens := 1, completionTokens := 2,
            totalTokens := 3, cachedTokens := 0 }) none).2.1 (by decide)
